import Mathlib

/-!
# Lexical path cleaning of the `vfs` package (`vfs/filepath.go`)

A shallow embedding of `IsAbs`, `lazybuf`, `Clean`, `Split`, `Join`, `Ext`,
`Base` and `Dir`.

* A Go `string` / `[]byte` is a `List Byte`.
* A Go index expression `s[i]` panics when `i` is out of range.  Every index
  expression of the source is therefore embedded as `s[i]?`, every slice
  expression `s[:k]` with an explicit range test, and every function returns an
  `Option`: `none` stands for a run-time panic (or for an exhausted iteration
  budget of a loop), `some v` for a normal return of `v`.
* The cursors `r`, `w` and `dotdot` of `Clean` are natural numbers: the source
  only decrements `out.w`, and only under the guard `out.w > dotdot`.  The
  cursor `i` of `Split`, `Ext`, `Base` and `Dir` starts at `len(path) - 1` and
  may reach `-1`; it is an `Int`.
* Two further definitions are written from the specification and compared
  with the embedding: `cleanRef`, the normalisation by segments and a stack,
  and `CleanPlain`, the algorithm of `Clean` over a plain output buffer.
-/

namespace vfs

/-- A byte of a Go string. -/
abbrev Byte := UInt8

/-- Modelled from the spec: the constant `PathSeparator` is declared outside
`filepath.go`.  The spec speaks of "slash-delimited path strings" with "a single
designated separator byte"; the separator is the byte `'/'`. -/
def PathSeparator : Byte := 47

/-- Modelled from the spec: the helper `IsPathSeparator` is declared outside
`filepath.go`.  A byte is a separator iff it is "the single designated byte
delimiting path segments", that is iff it equals `PathSeparator`. -/
def IsPathSeparator (c : Byte) : Bool := c == PathSeparator

/-- The byte `'.'`. -/
def dot : Byte := 46

/-- The function `IsAbs`: `strings.HasPrefix(path, string(PathSeparator))`. -/
def IsAbs (path : List Byte) : Bool := [PathSeparator].isPrefixOf path

/-- The struct `lazybuf`: `buf = none` is the Go `nil` slice. -/
structure lazybuf where
  path : List Byte
  buf : Option (List Byte)
  w : Nat
deriving DecidableEq, Repr

/-- The method `(b *lazybuf) index(i)`. -/
def lazybuf.index (b : lazybuf) (i : Nat) : Option Byte :=
  match b.buf with
  | some buf => buf[i]?
  | none => b.path[i]?

/-- The assignment `b.buf[b.w] = c; b.w++` at the end of `append`. -/
def lazybuf.store (b : lazybuf) (buf : List Byte) (c : Byte) : Option lazybuf :=
  if b.w < buf.length then
    some { b with buf := some (buf.set b.w c), w := b.w + 1 }
  else none

/-- The method `(b *lazybuf) append(c)`.  `make([]byte, len(b.path))` is a
zeroed slice, `copy(b.buf, b.path[:b.w])` overwrites its first `b.w` bytes and
panics (through the slice expression) when `b.w > len(b.path)`. -/
def lazybuf.append (b : lazybuf) (c : Byte) : Option lazybuf :=
  match b.buf with
  | none =>
    if b.w < b.path.length ∧ b.path[b.w]? = some c then
      some { b with w := b.w + 1 }
    else if b.w ≤ b.path.length then
      b.store (b.path.take b.w ++ List.replicate (b.path.length - b.w) 0) c
    else none
  | some buf => b.store buf c

/-- The method `(b *lazybuf) string()`. -/
def lazybuf.string (b : lazybuf) : Option (List Byte) :=
  match b.buf with
  | none => if b.w ≤ b.path.length then some (b.path.take b.w) else none
  | some buf => if b.w ≤ buf.length then some (buf.take b.w) else none

/-- The local variables of `Clean` that change in its main loop. -/
structure cleanState where
  r : Nat
  dotdot : Nat
  out : lazybuf
deriving DecidableEq, Repr

/-- The switch condition
`path[r] == '.' && (r+1 == n || IsPathSeparator(path[r+1]))`, with Go's
short-circuit evaluation. -/
def isDotElem (path : List Byte) (r : Nat) : Option Bool :=
  match path[r]? with
  | none => none
  | some c =>
    if c = dot then
      if r + 1 = path.length then some true
      else
        match path[r + 1]? with
        | none => none
        | some c1 => some (IsPathSeparator c1)
    else some false

/-- The switch condition
`path[r] == '.' && path[r+1] == '.' && (r+2 == n || IsPathSeparator(path[r+2]))`,
with Go's short-circuit evaluation. -/
def isDotDotElem (path : List Byte) (r : Nat) : Option Bool :=
  match path[r]? with
  | none => none
  | some c =>
    if c = dot then
      match path[r + 1]? with
      | none => none
      | some c1 =>
        if c1 = dot then
          if r + 2 = path.length then some true
          else
            match path[r + 2]? with
            | none => none
            | some c2 => some (IsPathSeparator c2)
        else some false
    else some false

/-- The loop `for out.w > dotdot && !IsPathSeparator(out.index(out.w)) { out.w-- }`,
by recursion on the current value of `out.w`; returns the final `out.w`. -/
def backtrack (out : lazybuf) (dotdot : Nat) : Nat → Option Nat
  | 0 => some 0
  | w + 1 =>
    if w + 1 > dotdot then
      match out.index (w + 1) with
      | none => none
      | some c => if IsPathSeparator c then some (w + 1) else backtrack out dotdot w
    else some (w + 1)

/-- The loop
`for ; r < n && !IsPathSeparator(path[r]); r++ { out.append(path[r]) }`.
The first argument bounds the number of iterations. -/
def copyElem (path : List Byte) : Nat → Nat → lazybuf → Option (Nat × lazybuf)
  | fuel, r, out =>
    if r < path.length then
      match path[r]? with
      | none => none
      | some c =>
        if IsPathSeparator c then some (r, out)
        else
          match fuel with
          | 0 => none
          | fuel + 1 =>
            match out.append c with
            | none => none
            | some out1 => copyElem path fuel (r + 1) out1
    else some (r, out)

/-- One iteration of the body of `for r < n { switch { ... } }` in `Clean`. -/
def cleanStep (path : List Byte) (rooted : Bool) (s : cleanState) : Option cleanState :=
  match path[s.r]? with
  | none => none
  | some c =>
    if IsPathSeparator c then
      -- empty path element
      some { s with r := s.r + 1 }
    else
      match isDotElem path s.r with
      | none => none
      | some true =>
        -- . element
        some { s with r := s.r + 1 }
      | some false =>
        match isDotDotElem path s.r with
        | none => none
        | some true =>
          -- .. element: remove to last separator
          if s.out.w > s.dotdot then
            -- can backtrack
            match backtrack s.out s.dotdot (s.out.w - 1) with
            | none => none
            | some w1 => some { r := s.r + 2, dotdot := s.dotdot, out := { s.out with w := w1 } }
          else if !rooted then
            -- cannot backtrack, but not rooted, so append .. element.
            match (if s.out.w > 0 then s.out.append PathSeparator else some s.out) with
            | none => none
            | some o1 =>
              match o1.append dot with
              | none => none
              | some o2 =>
                match o2.append dot with
                | none => none
                | some o3 => some { r := s.r + 2, dotdot := o3.w, out := o3 }
          else some { s with r := s.r + 2 }
        | some false =>
          -- real path element; add slash if needed
          match (if rooted && s.out.w != 1 || !rooted && s.out.w != 0
                 then s.out.append PathSeparator else some s.out) with
          | none => none
          | some o1 =>
            -- copy element
            match copyElem path (path.length - s.r) s.r o1 with
            | none => none
            | some (r1, o2) => some { r := r1, dotdot := s.dotdot, out := o2 }

/-- The loop `for r < n { ... }` of `Clean`; the first argument bounds the
number of iterations. -/
def cleanLoop (path : List Byte) (rooted : Bool) : Nat → cleanState → Option cleanState
  | fuel, s =>
    if s.r < path.length then
      match fuel with
      | 0 => none
      | fuel + 1 =>
        match cleanStep path rooted s with
        | none => none
        | some s1 => cleanLoop path rooted fuel s1
    else some s

/-- The state of `Clean` when it reaches its main loop. -/
def cleanInit (path : List Byte) (rooted : Bool) : Option cleanState :=
  let out : lazybuf := { path := path, buf := none, w := 0 }
  if rooted then
    match out.append PathSeparator with
    | none => none
    | some o1 => some { r := 1, dotdot := 1, out := o1 }
  else some { r := 0, dotdot := 0, out := out }

/-- The function `Clean`.  Every iteration of the main loop advances `r`, so
`len(path)` iterations are enough. -/
def Clean (path : List Byte) : Option (List Byte) :=
  match path with
  | [] => some [dot]
  | c0 :: _ =>
    let rooted := IsPathSeparator c0
    match cleanInit path rooted with
    | none => none
    | some s0 =>
      match cleanLoop path rooted path.length s0 with
      | none => none
      | some s =>
        -- Turn empty string into "."
        match (if s.out.w = 0 then s.out.append dot else some s.out) with
        | none => none
        | some o => o.string

/-- The slice expression `s[:hi]`; it panics unless `0 <= hi <= len(s)`. -/
def sliceTo (s : List Byte) (hi : Int) : Option (List Byte) :=
  if 0 ≤ hi ∧ hi ≤ s.length then some (s.take hi.toNat) else none

/-- The slice expression `s[lo:]`; it panics unless `0 <= lo <= len(s)`. -/
def sliceFrom (s : List Byte) (lo : Int) : Option (List Byte) :=
  if 0 ≤ lo ∧ lo ≤ s.length then some (s.drop lo.toNat) else none

/-- The loop `for i >= 0 && !IsPathSeparator(path[i]) { i-- }` of `Split`,
`Base` and `Dir`, by recursion on `i + 1`; returns the final `i`. -/
def scanBack (path : List Byte) : Nat → Option Int
  | 0 => some (-1)
  | j + 1 =>
    match path[j]? with
    | none => none
    | some c => if IsPathSeparator c then some (j : Int) else scanBack path j

/-- The function `Split`, started at `i := len(path) - 1`. -/
def Split (path : List Byte) : Option (List Byte × List Byte) :=
  match scanBack path path.length with
  | none => none
  | some i =>
    match sliceTo path (i + 1), sliceFrom path (i + 1) with
    | some dir, some file => some (dir, file)
    | _, _ => none

/-- The call `strings.Join(elems, sep)` of the Go standard library. -/
def stringsJoin (elems : List (List Byte)) (sep : List Byte) : List Byte :=
  sep.intercalate elems

/-- The function `Join`: the argument list is `elem[i:]` for the current `i`. -/
def Join : List (List Byte) → Option (List Byte)
  | [] => some []
  | e :: es =>
    if e ≠ [] then Clean (stringsJoin (e :: es) [PathSeparator])
    else Join es

/-- The loop of `Ext`, by recursion on `i + 1`. -/
def extLoop (path : List Byte) : Nat → Option (List Byte)
  | 0 => some []
  | j + 1 =>
    match path[j]? with
    | none => none
    | some c =>
      if IsPathSeparator c then some []
      else
        match path[j]? with
        | none => none
        | some c1 => if c1 = dot then sliceFrom path (j : Int) else extLoop path j

/-- The function `Ext`, started at `i := len(path) - 1`. -/
def Ext (path : List Byte) : Option (List Byte) := extLoop path path.length

/-- The loop
`for len(path) > 0 && IsPathSeparator(path[len(path)-1]) { path = path[0 : len(path)-1] }`
of `Base`; the first argument bounds the number of iterations. -/
def stripTrailing : Nat → List Byte → Option (List Byte)
  | fuel, path =>
    if path.length > 0 then
      match path[path.length - 1]? with
      | none => none
      | some c =>
        if IsPathSeparator c then
          match fuel with
          | 0 => none
          | fuel + 1 =>
            match sliceTo path ((path.length : Int) - 1) with
            | none => none
            | some path1 => stripTrailing fuel path1
        else some path
    else some path

/-- The function `Base`. -/
def Base (path : List Byte) : Option (List Byte) :=
  if path = [] then some [dot]
  else
    -- Strip trailing slashes.
    match stripTrailing path.length path with
    | none => none
    | some path1 =>
      -- Find the last element
      match scanBack path1 path1.length with
      | none => none
      | some i =>
        match (if i ≥ 0 then sliceFrom path1 (i + 1) else some path1) with
        | none => none
        | some path2 =>
          -- If empty now, it had only slashes.
          if path2 = [] then some [PathSeparator] else some path2

/-- The function `Dir`. -/
def Dir (path : List Byte) : Option (List Byte) :=
  match scanBack path path.length with
  | none => none
  | some i =>
    match sliceTo path (i + 1) with
    | none => none
    | some d => Clean d

/-! ## The reference normalisation

The second definition of cleaning, written from the words of the
specification: segments and a stack. -/

/-- Split a path at its separators: the segments between them, empty ones
included. -/
def splitSep : List Byte → List (List Byte)
  | [] => [[]]
  | c :: cs =>
    if IsPathSeparator c then [] :: splitSep cs
    else
      match splitSep cs with
      | [] => [[c]]
      | s :: ss => (c :: s) :: ss

/-- A segment is kept unless it is empty or `"."`. -/
def keepSeg (s : List Byte) : Bool := decide (s ≠ [] ∧ s ≠ [dot])

/-- The segments of a path that are neither empty nor `"."`. -/
def segments (p : List Byte) : List (List Byte) := (splitSep p).filter keepSeg

/-- One step of the reference normalisation; the top of the stack is the head
of the list.  A `".."` pops a top that is not `".."`; it is pushed on an empty
stack or on a `".."` top when the path is not rooted; it is dropped otherwise.
Any other segment is pushed. -/
def stackStep (rooted : Bool) (st : List (List Byte)) (s : List Byte) : List (List Byte) :=
  if s = [dot, dot] then
    match st with
    | [] => if rooted then [] else [s]
    | t :: rest =>
      if t = [dot, dot] then (if rooted then st else s :: st)
      else rest
  else s :: st

/-- Segments joined by single separators. -/
def joinSegs : List (List Byte) → List Byte
  | [] => []
  | [s] => s
  | s :: t :: ss => s ++ PathSeparator :: joinSegs (t :: ss)

/-- The root prefix of the result: one separator for a rooted path. -/
def rootOf (rooted : Bool) : List Byte := if rooted then [PathSeparator] else []

/-- The reference segment normalisation of a path. -/
def cleanRef (p : List Byte) : List Byte :=
  let rooted := IsAbs p
  let st := (segments p).foldl (stackStep rooted) []
  let body := rootOf rooted ++ joinSegs st.reverse
  if body = [] then [dot] else body

/-! ## The same algorithm over an ordinary output buffer

The second definition of `Clean` for the refinement of the lazy buffer: the
output is a plain byte list, `append` adds a byte at its end, `index` reads it,
the write cursor `w` is its length, and backtracking truncates it. -/

/-- The local variables of the main loop, with a plain output buffer. -/
structure plainState where
  r : Nat
  dotdot : Nat
  out : List Byte
deriving DecidableEq, Repr

/-- The backtracking loop over a plain buffer; returns the final `w`. -/
def backtrackPlain (out : List Byte) (dotdot : Nat) : Nat → Option Nat
  | 0 => some 0
  | w + 1 =>
    if w + 1 > dotdot then
      match out[w + 1]? with
      | none => none
      | some c => if IsPathSeparator c then some (w + 1) else backtrackPlain out dotdot w
    else some (w + 1)

/-- The copy loop over a plain buffer. -/
def copyElemPlain (path : List Byte) : Nat → Nat → List Byte → Option (Nat × List Byte)
  | fuel, r, out =>
    if r < path.length then
      match path[r]? with
      | none => none
      | some c =>
        if IsPathSeparator c then some (r, out)
        else
          match fuel with
          | 0 => none
          | fuel + 1 => copyElemPlain path fuel (r + 1) (out ++ [c])
    else some (r, out)

/-- One iteration of the main loop over a plain buffer. -/
def cleanStepPlain (path : List Byte) (rooted : Bool) (s : plainState) : Option plainState :=
  match path[s.r]? with
  | none => none
  | some c =>
    if IsPathSeparator c then some { s with r := s.r + 1 }
    else
      match isDotElem path s.r with
      | none => none
      | some true => some { s with r := s.r + 1 }
      | some false =>
        match isDotDotElem path s.r with
        | none => none
        | some true =>
          if s.out.length > s.dotdot then
            match backtrackPlain s.out s.dotdot (s.out.length - 1) with
            | none => none
            | some w1 => some { r := s.r + 2, dotdot := s.dotdot, out := s.out.take w1 }
          else if !rooted then
            let o1 := if s.out.length > 0 then s.out ++ [PathSeparator] else s.out
            let o3 := o1 ++ [dot] ++ [dot]
            some { r := s.r + 2, dotdot := o3.length, out := o3 }
          else some { s with r := s.r + 2 }
        | some false =>
          let o1 := if rooted && s.out.length != 1 || !rooted && s.out.length != 0
                    then s.out ++ [PathSeparator] else s.out
          match copyElemPlain path (path.length - s.r) s.r o1 with
          | none => none
          | some (r1, o2) => some { r := r1, dotdot := s.dotdot, out := o2 }

/-- The main loop over a plain buffer. -/
def cleanLoopPlain (path : List Byte) (rooted : Bool) : Nat → plainState → Option plainState
  | fuel, s =>
    if s.r < path.length then
      match fuel with
      | 0 => none
      | fuel + 1 =>
        match cleanStepPlain path rooted s with
        | none => none
        | some s1 => cleanLoopPlain path rooted fuel s1
    else some s

/-- The state of the plain algorithm when it reaches its main loop. -/
def plainInit (rooted : Bool) : plainState :=
  if rooted then { r := 1, dotdot := 1, out := [PathSeparator] }
  else { r := 0, dotdot := 0, out := [] }

/-- The algorithm of `Clean` over a plain output buffer. -/
def CleanPlain (path : List Byte) : Option (List Byte) :=
  match path with
  | [] => some [dot]
  | c0 :: _ =>
    let rooted := IsPathSeparator c0
    match cleanLoopPlain path rooted path.length (plainInit rooted) with
    | none => none
    | some s => some (if s.out.length = 0 then s.out ++ [dot] else s.out)

/-! ## Invariants used by the proofs -/

/-- The representation invariant of a `lazybuf`: the write cursor is inside
the input, and an allocated buffer has the length of the input. -/
def lazybuf.inv (b : lazybuf) : Prop :=
  b.w ≤ b.path.length ∧ ∀ buf, b.buf = some buf → buf.length = b.path.length

/-- The bytes written so far: what `string()` returns. -/
def lazybuf.content (b : lazybuf) : List Byte :=
  match b.buf with
  | none => b.path.take b.w
  | some buf => buf.take b.w

/-- The plain state that a state of `Clean` stands for. -/
def cleanState.abs (s : cleanState) : plainState :=
  { r := s.r, dotdot := s.dotdot, out := s.out.content }

/-- A run of bytes without a separator. -/
def noSep (s : List Byte) : Prop := ∀ c ∈ s, IsPathSeparator c = false

instance noSepDecidable (s : List Byte) : Decidable (noSep s) :=
  inferInstanceAs (Decidable (∀ c ∈ s, IsPathSeparator c = false))

/-- A list of bytes that is empty or begins with a separator. -/
def sepHead (l : List Byte) : Prop := ∀ c, l.head? = some c → IsPathSeparator c = true

/-- A run of `k` segments `".."`. -/
def ddPrefix (k : Nat) : List (List Byte) := List.replicate k [dot, dot]

/-- The loop invariant of `Clean`, against the stack of the reference
normalisation: the output holds the root prefix, `k` segments `".."` and then
the segments of `N` (most recent first in `N`), `dotdot` is the end of the
`".."` run, and the write cursor stays behind the read cursor. -/
structure Good (path : List Byte) (rooted : Bool) (s : cleanState) (k : Nat)
    (N : List (List Byte)) : Prop where
  inv : s.out.inv
  hpath : s.out.path = path
  content : s.out.content = rootOf rooted ++ joinSegs (ddPrefix k ++ N.reverse)
  hdd : s.dotdot = (rootOf rooted ++ joinSegs (ddPrefix k)).length
  hroot : rooted = true → k = 0
  hN : ∀ t ∈ N, t ≠ [] ∧ noSep t ∧ t ≠ [dot, dot]
  root_le : (rootOf rooted).length ≤ s.r
  r_le : s.r ≤ path.length
  w_le : s.out.w ≤ s.r
  slack : (k ≠ 0 ∨ N ≠ []) → s.out.w + 1 ≤ s.r ∨ s.r = path.length ∨
    ∃ c, path[s.r]? = some c ∧ IsPathSeparator c = true

/-- The shape of a stack of the reference normalisation: `k` segments `".."`
(none for a rooted path) below the proper segments `N`. -/
def Canon (rooted : Bool) (k : Nat) (N : List (List Byte)) : Prop :=
  (rooted = true → k = 0) ∧ ∀ t ∈ N, t ≠ [] ∧ noSep t ∧ t ≠ [dot] ∧ t ≠ [dot, dot]

/-- The segments of a path in the sense of the glossary: its maximal runs of
non-separator bytes. -/
def runs (q : List Byte) : List (List Byte) := (splitSep q).filter (fun s => decide (s ≠ []))

/-- No two adjacent bytes of `q` are both separators. -/
def noAdjSep (q : List Byte) : Prop :=
  List.Chain' (fun a b => ¬ (IsPathSeparator a = true ∧ IsPathSeparator b = true)) q

/-- The write cursor is strictly behind what a run in place would have written:
the output is already shorter than the consumed input allows. -/
@[reducible] def Behind (path : List Byte) (rooted : Bool) (s : cleanState) : Prop :=
  s.out.w + 1 ≤ s.r ∧
    (s.out.w ≠ (rootOf rooted).length →
      s.out.w + 2 ≤ s.r ∨ s.r = path.length ∨
        ∃ c, path[s.r]? = some c ∧ IsPathSeparator c = true)

/-- The in-place invariant of `Clean`: either nothing was allocated and the
output is the consumed input (up to the separator just read), or the write
cursor is strictly behind what an in-place run would have written. -/
def Tight (path : List Byte) (rooted : Bool) (s : cleanState) : Prop :=
  (s.out.buf = none ∧
    (s.r = s.out.w ∨
      (s.r = s.out.w + 1 ∧ path[s.out.w]? = some PathSeparator ∧
        s.out.w ≠ (rootOf rooted).length))) ∨
  (s.out.w + 1 ≤ s.r ∧
    (s.out.w ≠ (rootOf rooted).length →
      s.out.w + 2 ≤ s.r ∨ s.r = path.length ∨
        ∃ c, path[s.r]? = some c ∧ IsPathSeparator c = true))

/-- The loop heads of `Clean`: the states in which the condition `r < n` of the
main loop is evaluated. -/
inductive LoopHead (path : List Byte) (rooted : Bool) : cleanState → Prop
  | init (s : cleanState) : cleanInit path rooted = some s → LoopHead path rooted s
  | step (s s1 : cleanState) : LoopHead path rooted s → s.r < path.length →
      cleanStep path rooted s = some s1 → LoopHead path rooted s1

/-! ## The lazy buffer behaves like a plain output buffer -/

theorem take_set_succ {α : Type} (l : List α) (w : Nat) (c : α) (h : w < l.length) :
    (l.set w c).take (w + 1) = l.take w ++ [c] := by
  induction l generalizing w with
  | nil => simp at h
  | cons a l ih =>
    cases w with
    | zero => simp
    | succ w => simp at h; simp [ih w h]

theorem lazybuf.string_eq (b : lazybuf) (h : b.inv) : b.string = some b.content := by
  obtain ⟨h1, h2⟩ := h
  unfold lazybuf.string lazybuf.content
  cases hb : b.buf with
  | none => simp [h1]
  | some buf => simp [h2 buf hb, h1]

theorem lazybuf.content_length (b : lazybuf) (h : b.inv) : b.content.length = b.w := by
  obtain ⟨h1, h2⟩ := h
  unfold lazybuf.content
  cases hb : b.buf with
  | none => simp [h1]
  | some buf => simp [h2 buf hb, h1]

theorem lazybuf.store_spec (b : lazybuf) (buf : List Byte) (c : Byte)
    (hlen : buf.length = b.path.length) (hw : b.w < b.path.length) :
    ∃ b1, b.store buf c = some b1 ∧ b1.inv ∧ b1.path = b.path ∧ b1.w = b.w + 1 ∧
      b1.content = buf.take b.w ++ [c] := by
  refine ⟨{ b with buf := some (buf.set b.w c), w := b.w + 1 }, ?_, ?_, rfl, rfl, ?_⟩
  · simp [lazybuf.store, hlen, hw]
  · refine ⟨hw, ?_⟩
    intro buf1 hb
    simp at hb
    simp [← hb, hlen]
  · simp only [lazybuf.content]
    exact take_set_succ buf b.w c (by omega)

theorem lazybuf.append_spec (b : lazybuf) (c : Byte) (h : b.inv) (hw : b.w < b.path.length) :
    ∃ b1, b.append c = some b1 ∧ b1.inv ∧ b1.path = b.path ∧ b1.w = b.w + 1 ∧
      b1.content = b.content ++ [c] := by
  obtain ⟨h1, h2⟩ := h
  unfold lazybuf.append
  cases hb : b.buf with
  | none =>
    by_cases hc : b.path[b.w]? = some c
    · refine ⟨{ b with w := b.w + 1 }, by simp [hw, hc, hb], ⟨hw, ?_⟩, rfl, rfl, ?_⟩
      · intro buf hbuf
        simp [hb] at hbuf
      · simp [lazybuf.content, hb, List.take_succ, hc]
    · obtain ⟨b1, e1, e2, e3, e4, e5⟩ :=
        b.store_spec (b.path.take b.w ++ List.replicate (b.path.length - b.w) 0) c
          (by simp; omega) hw
      refine ⟨b1, by simp [hc, h1, e1], e2, e3, e4, ?_⟩
      rw [e5]
      simp [lazybuf.content, hb, List.take_append_eq_append_take, h1]
  | some buf =>
    obtain ⟨b1, e1, e2, e3, e4, e5⟩ := b.store_spec buf c (h2 buf hb) hw
    refine ⟨b1, by simpa using e1, e2, e3, e4, ?_⟩
    rw [e5]
    simp [lazybuf.content, hb]

theorem lazybuf.index_spec (b : lazybuf) (i : Nat) (hi : i < b.w) :
    b.index i = b.content[i]? := by
  unfold lazybuf.index lazybuf.content
  cases hb : b.buf with
  | none => simp [List.getElem?_take, hi]
  | some buf => simp [List.getElem?_take, hi]

theorem lazybuf.truncate_spec (b : lazybuf) (k : Nat) (h : b.inv) (hk : k ≤ b.w) :
    ({ b with w := k } : lazybuf).inv ∧
      ({ b with w := k } : lazybuf).content = b.content.take k := by
  obtain ⟨h1, h2⟩ := h
  refine ⟨⟨by simp; omega, by simpa using h2⟩, ?_⟩
  unfold lazybuf.content
  cases hb : b.buf with
  | none => simp [List.take_take, hk]
  | some buf => simp [List.take_take, hk]

/-! ## Segments -/

theorem isPathSeparator_sep : IsPathSeparator PathSeparator = true := by
  simp [IsPathSeparator]

theorem isPathSeparator_dot : IsPathSeparator dot = false := by decide

theorem isPathSeparator_iff (c : Byte) : IsPathSeparator c = true ↔ c = PathSeparator := by
  simp [IsPathSeparator]

theorem noSep_nil : noSep [] := by intro c hc; simp at hc

theorem noSep_cons (a : Byte) (s : List Byte) :
    noSep (a :: s) ↔ IsPathSeparator a = false ∧ noSep s := by
  simp [noSep]

theorem splitSep_cons (c : Byte) (cs : List Byte) :
    splitSep (c :: cs) =
      if IsPathSeparator c then [] :: splitSep cs
      else
        match splitSep cs with
        | [] => [[c]]
        | s :: ss => (c :: s) :: ss := by
  rw [splitSep]

theorem splitSep_append (s tail : List Byte) (hs : noSep s) (ht : sepHead tail) :
    splitSep (s ++ tail) = s :: (splitSep tail).tail := by
  induction s with
  | nil =>
    cases tail with
    | nil => simp [splitSep]
    | cons c rest =>
      have hc : IsPathSeparator c = true := ht c (by simp)
      simp [splitSep, hc]
  | cons a s ih =>
    obtain ⟨ha, hs1⟩ := (noSep_cons a s).1 hs
    have e := ih hs1
    rw [List.cons_append, splitSep_cons, e]
    simp [ha]

theorem splitSep_head_of_sepHead (tail : List Byte) (ht : sepHead tail) :
    splitSep tail = [] :: (splitSep tail).tail := by
  simpa using splitSep_append [] tail noSep_nil ht

theorem segments_nil : segments [] = [] := by
  simp [segments, splitSep, keepSeg]

theorem segments_sep_cons (c : Byte) (rest : List Byte) (hc : IsPathSeparator c = true) :
    segments (c :: rest) = segments rest := by
  simp [segments, splitSep, hc, keepSeg]

theorem segments_append (s tail : List Byte) (hs : noSep s) (ht : sepHead tail) :
    segments (s ++ tail) = (if keepSeg s then [s] else []) ++ segments tail := by
  have e1 := splitSep_append s tail hs ht
  have e2 := splitSep_head_of_sepHead tail ht
  unfold segments
  rw [e1]
  conv_rhs => rw [e2]
  have h0 : keepSeg [] = false := by simp [keepSeg]
  by_cases hk : keepSeg s = true
  · simp [List.filter_cons, hk, h0]
  · simp [List.filter_cons, hk, h0]

theorem seg_decomp (l : List Byte) :
    ∃ seg tail, l = seg ++ tail ∧ noSep seg ∧ sepHead tail ∧
      (∀ c, l.head? = some c → IsPathSeparator c = false → seg ≠ []) := by
  induction l with
  | nil => exact ⟨[], [], rfl, noSep_nil, by intro c hc; simp at hc, by intro c hc; simp at hc⟩
  | cons a l ih =>
    by_cases ha : IsPathSeparator a = true
    · refine ⟨[], a :: l, rfl, noSep_nil, ?_, ?_⟩
      · intro c hc
        simp at hc
        simpa [← hc] using ha
      · intro c hc hf
        simp at hc
        rw [← hc] at hf
        simp [hf] at ha
    · obtain ⟨seg, tail, e, h1, h2, _⟩ := ih
      refine ⟨a :: seg, tail, by simp [e], ?_, h2, by intros; simp⟩
      exact (noSep_cons a seg).2 ⟨by simpa using ha, h1⟩

/-! ## Joining segments -/

theorem joinSegs_append_singleton (L : List (List Byte)) (s : List Byte) :
    joinSegs (L ++ [s]) = if L = [] then s else joinSegs L ++ PathSeparator :: s := by
  induction L with
  | nil => simp [joinSegs]
  | cons a L ih =>
    cases L with
    | nil => simp [joinSegs]
    | cons b L =>
      simp only [List.cons_append] at ih ⊢
      simp only [joinSegs, ih]
      simp

theorem joinSegs_eq_nil (L : List (List Byte)) (h : ∀ t ∈ L, t ≠ []) (e : joinSegs L = []) :
    L = [] := by
  cases L with
  | nil => rfl
  | cons a L =>
    cases L with
    | nil => simp [joinSegs] at e; simp [e] at h
    | cons b L => simp [joinSegs] at e

theorem joinSegs_append_exists (A B : List (List Byte)) :
    ∃ Z, joinSegs (A ++ B) = joinSegs A ++ Z := by
  induction B using List.reverseRecOn with
  | nil => exact ⟨[], by simp⟩
  | append_singleton B s ih =>
    obtain ⟨Z, hZ⟩ := ih
    rw [← List.append_assoc, joinSegs_append_singleton]
    by_cases h : A ++ B = []
    · simp at h
      simp [h.1, h.2, joinSegs]
    · simp only [h, if_false, hZ]
      exact ⟨Z ++ PathSeparator :: s, by simp⟩

theorem ddPrefix_succ (k : Nat) : ddPrefix (k + 1) = ddPrefix k ++ [[dot, dot]] := by
  simp [ddPrefix, List.replicate_succ']

theorem ddPrefix_eq_nil (k : Nat) : ddPrefix k = [] ↔ k = 0 := by
  cases k <;> simp [ddPrefix, List.replicate_succ]

/-! ## Reading the input through its unread suffix -/

theorem drop_cons_inv {path : List Byte} {r : Nat} {a : Byte} {l : List Byte}
    (h : path.drop r = a :: l) :
    r < path.length ∧ path[r]? = some a ∧ path.drop (r + 1) = l := by
  have h1 : r < path.length := by
    by_contra hc
    rw [List.drop_eq_nil_of_le (by omega)] at h
    cases h
  refine ⟨h1, ?_, ?_⟩
  · have := List.getElem?_drop path r 0
    rw [h] at this
    simpa using this.symm
  · rw [← List.tail_drop, h]
    rfl

theorem getElem?_of_drop {path : List Byte} {r : Nat} {l : List Byte}
    (h : path.drop r = l) (i : Nat) : path[r + i]? = l[i]? := by
  rw [← h, List.getElem?_drop]

theorem length_of_drop {path : List Byte} {r : Nat} {l : List Byte}
    (h : path.drop r = l) (hr : r ≤ path.length) : path.length = r + l.length := by
  rw [← h, List.length_drop]
  omega

theorem drop_append_length {path : List Byte} {r : Nat} {seg tail : List Byte}
    (h : path.drop r = seg ++ tail) : path.drop (r + seg.length) = tail := by
  rw [← List.drop_drop, h, List.drop_left]

theorem isDotElem_spec (path : List Byte) (r : Nat) (seg tail : List Byte)
    (h : path.drop r = seg ++ tail) (hne : seg ≠ []) (hs : noSep seg) (ht : sepHead tail) :
    isDotElem path r = some (decide (seg = [dot])) := by
  have hr : r ≤ path.length := by
    by_contra hc
    rw [List.drop_eq_nil_of_le (by omega)] at h
    cases seg <;> simp at h hne
  have hlen := length_of_drop h hr
  have h0 := getElem?_of_drop h 0
  have h1 := getElem?_of_drop h 1
  simp only [Nat.add_zero] at h0
  unfold isDotElem
  rw [h0, h1]
  rcases seg with _ | ⟨a, _ | ⟨b, seg1⟩⟩
  · exact absurd rfl hne
  · cases tail with
    | nil => by_cases ha : a = dot <;> simp [ha, hlen]
    | cons c rest =>
      have hc : IsPathSeparator c = true := ht c (by simp)
      by_cases ha : a = dot <;> simp [ha, hlen, hc]
  · have hb : IsPathSeparator b = false := hs b (by simp)
    by_cases ha : a = dot <;> simp [ha, hlen, hb]

theorem isDotDotElem_spec (path : List Byte) (r : Nat) (seg tail : List Byte)
    (h : path.drop r = seg ++ tail) (hne : seg ≠ []) (hs : noSep seg) (ht : sepHead tail)
    (hd : seg ≠ [dot]) :
    isDotDotElem path r = some (decide (seg = [dot, dot])) := by
  have hr : r ≤ path.length := by
    by_contra hc
    rw [List.drop_eq_nil_of_le (by omega)] at h
    cases seg <;> simp at h hne
  have hlen := length_of_drop h hr
  have h0 := getElem?_of_drop h 0
  have h1 := getElem?_of_drop h 1
  have h2 := getElem?_of_drop h 2
  simp only [Nat.add_zero] at h0
  unfold isDotDotElem
  rw [h0, h1, h2]
  rcases seg with _ | ⟨a, _ | ⟨b, _ | ⟨c, seg1⟩⟩⟩
  · exact absurd rfl hne
  · have ha : a ≠ dot := by
      intro e
      exact hd (by rw [e])
    simp [ha]
  · cases tail with
    | nil => by_cases ha : a = dot <;> by_cases hb : b = dot <;> simp [ha, hb, hlen]
    | cons c rest =>
      have hc : IsPathSeparator c = true := ht c (by simp)
      by_cases ha : a = dot <;> by_cases hb : b = dot <;> simp [ha, hb, hlen, hc]
  · have hc : IsPathSeparator c = false := hs c (by simp)
    by_cases ha : a = dot <;> by_cases hb : b = dot <;> simp [ha, hb, hlen, hc]

/-! ## The inner loops -/

theorem backtrack_spec (out : lazybuf) (dotdot m : Nat) (hd : dotdot ≤ m)
    (hstop : m = dotdot ∨ ∃ b, out.index m = some b ∧ IsPathSeparator b = true) :
    ∀ w, m ≤ w →
      (∀ i, m < i → i ≤ w → ∃ b, out.index i = some b ∧ IsPathSeparator b = false) →
      backtrack out dotdot w = some m := by
  intro w
  induction w with
  | zero =>
    intro hm _
    have : m = 0 := by omega
    simp [backtrack, this]
  | succ w ih =>
    intro hm hns
    rw [backtrack]
    by_cases hmw : m = w + 1
    · by_cases hgt : w + 1 > dotdot
      · rcases hstop with h | ⟨b, hb1, hb2⟩
        · omega
        · rw [hmw] at hb1
          simp [hgt, hb1, hb2, hmw]
      · simp [hgt, hmw]
    · have hgt : w + 1 > dotdot := by omega
      obtain ⟨b, hb1, hb2⟩ := hns (w + 1) (by omega) (le_refl _)
      simp only [hgt, if_true, hb1, hb2]
      exact ih (by omega) (fun i h1 h2 => hns i h1 (by omega))

theorem copyElem_spec (path : List Byte) (tail : List Byte) (ht : sepHead tail) :
    ∀ (seg : List Byte) (fuel r : Nat) (out : lazybuf), noSep seg →
      path.drop r = seg ++ tail → seg.length ≤ fuel → out.inv → out.path = path →
      out.w ≤ r →
      ∃ out1, copyElem path fuel r out = some (r + seg.length, out1) ∧ out1.inv ∧
        out1.path = path ∧ out1.w = out.w + seg.length ∧
        out1.content = out.content ++ seg := by
  intro seg
  induction seg with
  | nil =>
    intro fuel r out _ h _ hinv hp _
    refine ⟨out, ?_, hinv, hp, rfl, by simp⟩
    rw [copyElem]
    by_cases hr : r < path.length
    · cases tail with
      | nil =>
        have := length_of_drop h (by omega)
        simp at this
        omega
      | cons c rest =>
        have hc : IsPathSeparator c = true := ht c (by simp)
        obtain ⟨_, e, _⟩ := drop_cons_inv (show path.drop r = c :: rest by simpa using h)
        simp [hr, e, hc]
    · simp [hr]
  | cons a seg ih =>
    intro fuel r out hs h hf hinv hp hw
    obtain ⟨ha, hs1⟩ := (noSep_cons a seg).1 hs
    obtain ⟨hr, e, hdrop⟩ := drop_cons_inv (show path.drop r = a :: (seg ++ tail) by simpa using h)
    cases fuel with
    | zero => simp at hf
    | succ fuel =>
      obtain ⟨o1, a1, a2, a3, a4, a5⟩ := out.append_spec a hinv (by rw [hp]; omega)
      obtain ⟨o2, b1, b2, b3, b4, b5⟩ :=
        ih fuel (r + 1) o1 hs1 hdrop (by simpa using hf) a2 (by rw [a3, hp]) (by omega)
      refine ⟨o2, ?_, b2, b3, ?_, ?_⟩
      · rw [copyElem]
        simp only [hr, if_true, e, ha, a1]
        rw [b1, List.length_cons, Nat.add_assoc, Nat.add_comm 1]
        simp
      · rw [b4, a4, List.length_cons]
        omega
      · rw [b5, a5]
        simp

/-! ## One iteration of the main loop preserves the invariant -/

theorem after_segment {path : List Byte} {r : Nat} {tail : List Byte}
    (h : path.drop r = tail) (ht : sepHead tail) (hr : r ≤ path.length) :
    r = path.length ∨ ∃ c, path[r]? = some c ∧ IsPathSeparator c = true := by
  cases tail with
  | nil =>
    have := length_of_drop h hr
    simp at this
    exact Or.inl this.symm
  | cons c rest =>
    obtain ⟨_, e, _⟩ := drop_cons_inv h
    exact Or.inr ⟨c, e, ht c (by simp)⟩

theorem Good.w_eq {path : List Byte} {rooted : Bool} {s : cleanState} {k : Nat}
    {N : List (List Byte)} (g : Good path rooted s k N) :
    s.out.w = (rootOf rooted ++ joinSegs (ddPrefix k ++ N.reverse)).length := by
  rw [← g.content, lazybuf.content_length _ g.inv]

theorem Good.dotdot_le {path : List Byte} {rooted : Bool} {s : cleanState} {k : Nat}
    {N : List (List Byte)} (g : Good path rooted s k N) : s.dotdot ≤ s.out.w := by
  obtain ⟨Z, hZ⟩ := joinSegs_append_exists (ddPrefix k) N.reverse
  rw [g.w_eq, g.hdd, hZ]
  simp

theorem Good.segs_ne {path : List Byte} {rooted : Bool} {s : cleanState} {k : Nat}
    {N : List (List Byte)} (g : Good path rooted s k N) :
    ∀ t ∈ ddPrefix k ++ N.reverse, t ≠ [] := by
  intro t ht
  rcases List.mem_append.1 ht with h | h
  · rw [ddPrefix, List.mem_replicate] at h
    rw [h.2]
    simp
  · exact (g.hN t (List.mem_reverse.1 h)).1

theorem step_sep (path : List Byte) (rooted : Bool) (s : cleanState) (k : Nat)
    (N : List (List Byte)) (g : Good path rooted s k N) (c : Byte) (rest : List Byte)
    (h : path.drop s.r = c :: rest) (hc : IsPathSeparator c = true) :
    ∃ s1 k1 N1, cleanStep path rooted s = some s1 ∧ Good path rooted s1 k1 N1 ∧
      s.r < s1.r ∧
      (segments (path.drop s.r)).foldl (stackStep rooted) (N ++ ddPrefix k) =
        (segments (path.drop s1.r)).foldl (stackStep rooted) (N1 ++ ddPrefix k1) := by
  obtain ⟨hr, e, hdrop⟩ := drop_cons_inv h
  refine ⟨{ s with r := s.r + 1 }, k, N, ?_, ?_, by simp, ?_⟩
  · simp [cleanStep, e, hc]
  · exact
      { inv := g.inv
        hpath := g.hpath
        content := g.content
        hdd := g.hdd
        hroot := g.hroot
        hN := g.hN
        root_le := Nat.le_succ_of_le g.root_le
        r_le := hr
        w_le := Nat.le_succ_of_le g.w_le
        slack := fun _ => Or.inl (Nat.succ_le_succ g.w_le) }
  · rw [h, segments_sep_cons c rest hc]
    simp only
    rw [hdrop]

theorem step_dot (path : List Byte) (rooted : Bool) (s : cleanState) (k : Nat)
    (N : List (List Byte)) (g : Good path rooted s k N) (tail : List Byte)
    (h : path.drop s.r = [dot] ++ tail) (ht : sepHead tail) :
    ∃ s1 k1 N1, cleanStep path rooted s = some s1 ∧ Good path rooted s1 k1 N1 ∧
      s.r < s1.r ∧
      (segments (path.drop s.r)).foldl (stackStep rooted) (N ++ ddPrefix k) =
        (segments (path.drop s1.r)).foldl (stackStep rooted) (N1 ++ ddPrefix k1) := by
  have hs : noSep [dot] := by
    intro c hc
    simp at hc
    rw [hc]
    exact isPathSeparator_dot
  obtain ⟨hr, e, hdrop⟩ := drop_cons_inv (show path.drop s.r = dot :: tail from h)
  have hd := isDotElem_spec path s.r [dot] tail h (by simp) hs ht
  refine ⟨{ s with r := s.r + 1 }, k, N, ?_, ?_, by simp, ?_⟩
  · simp [cleanStep, e, isPathSeparator_dot, hd]
  · exact
      { inv := g.inv
        hpath := g.hpath
        content := g.content
        hdd := g.hdd
        hroot := g.hroot
        hN := g.hN
        root_le := Nat.le_succ_of_le g.root_le
        r_le := hr
        w_le := Nat.le_succ_of_le g.w_le
        slack := fun _ => Or.inr (after_segment hdrop ht hr) }
  · rw [h, segments_append [dot] tail hs ht]
    simp only
    rw [hdrop]
    simp [keepSeg]

theorem backtrack_content (out : lazybuf) (hinv : out.inv) (dotdot : Nat) (X u1 : List Byte)
    (u0 : Byte) (hc : out.content = X ++ u0 :: u1) (hu : noSep u1) (hd : dotdot ≤ X.length)
    (hstop : X.length = dotdot ∨ IsPathSeparator u0 = true) :
    backtrack out dotdot (out.w - 1) = some X.length := by
  have hw : out.w = X.length + 1 + u1.length := by
    rw [← lazybuf.content_length _ hinv, hc]
    simp
    omega
  refine backtrack_spec out dotdot X.length hd ?_ (out.w - 1) (by omega) ?_
  · rcases hstop with h | h
    · exact Or.inl h
    · refine Or.inr ⟨u0, ?_, h⟩
      rw [lazybuf.index_spec _ _ (by omega), hc, List.getElem?_append_right (le_refl _)]
      simp
  · intro i h1 h2
    obtain ⟨j, hj⟩ : ∃ j, i = X.length + 1 + j := ⟨i - X.length - 1, by omega⟩
    subst hj
    have hjl : j < u1.length := by omega
    refine ⟨u1[j], ?_, hu _ (List.getElem_mem _)⟩
    rw [lazybuf.index_spec _ _ (by omega), hc, List.getElem?_append_right (by omega)]
    have e : X.length + 1 + j - X.length = j + 1 := by omega
    rw [e, List.getElem?_cons_succ, List.getElem?_eq_getElem hjl]

theorem noSep_dotdot : noSep [dot, dot] := by
  intro c hc
  simp at hc
  rw [hc]
  exact isPathSeparator_dot

theorem step_dotdot_pop (path : List Byte) (rooted : Bool) (s : cleanState) (k : Nat)
    (t : List Byte) (N : List (List Byte)) (g : Good path rooted s k (t :: N))
    (tail : List Byte) (h : path.drop s.r = [dot, dot] ++ tail) (ht : sepHead tail) :
    ∃ s1 k1 N1, cleanStep path rooted s = some s1 ∧ Good path rooted s1 k1 N1 ∧
      s.r < s1.r ∧
      (segments (path.drop s.r)).foldl (stackStep rooted) ((t :: N) ++ ddPrefix k) =
        (segments (path.drop s1.r)).foldl (stackStep rooted) (N1 ++ ddPrefix k1) := by
  obtain ⟨hr, e, _⟩ := drop_cons_inv (show path.drop s.r = dot :: (dot :: tail) from h)
  have hlen : path.length = s.r + (tail.length + 2) := by
    have := length_of_drop h g.r_le
    simpa using this
  have hdrop : path.drop (s.r + 2) = tail := drop_append_length h
  have hd1 := isDotElem_spec path s.r [dot, dot] tail h (by simp) noSep_dotdot ht
  have hd2 := isDotDotElem_spec path s.r [dot, dot] tail h (by simp) noSep_dotdot ht (by simp)
  obtain ⟨ht1, ht2, ht3⟩ := g.hN t (by simp)
  have hcont : s.out.content =
      rootOf rooted ++ joinSegs ((ddPrefix k ++ N.reverse) ++ [t]) := by
    rw [g.content]
    simp
  obtain ⟨Z, hZ⟩ := joinSegs_append_exists (ddPrefix k) N.reverse
  have hdle : s.dotdot ≤ (rootOf rooted ++ joinSegs (ddPrefix k ++ N.reverse)).length := by
    rw [g.hdd, hZ]
    simp
  have key : ∃ u0 u1, s.out.content =
      (rootOf rooted ++ joinSegs (ddPrefix k ++ N.reverse)) ++ u0 :: u1 ∧ noSep u1 ∧
      ((rootOf rooted ++ joinSegs (ddPrefix k ++ N.reverse)).length = s.dotdot ∨
        IsPathSeparator u0 = true) := by
    rw [joinSegs_append_singleton] at hcont
    by_cases hL : ddPrefix k ++ N.reverse = []
    · cases t with
      | nil => exact absurd rfl ht1
      | cons u0 u1 =>
        refine ⟨u0, u1, ?_, ((noSep_cons u0 u1).1 ht2).2, Or.inl ?_⟩
        · rw [hcont, hL]
          simp [joinSegs]
        · rw [g.hdd, hL]
          have := List.append_eq_nil.1 hL
          rw [this.1]
    · refine ⟨PathSeparator, t, ?_, ht2, Or.inr isPathSeparator_sep⟩
      rw [hcont]
      simp [hL]
  obtain ⟨u0, u1, hX, hu, hstop⟩ := key
  have hw : s.out.w =
      (rootOf rooted ++ joinSegs (ddPrefix k ++ N.reverse)).length + 1 + u1.length := by
    rw [← lazybuf.content_length _ g.inv, hX, List.length_append, List.length_cons]
    omega
  have hb := backtrack_content s.out g.inv s.dotdot _ u1 u0 hX hu hdle hstop
  obtain ⟨i1, i2⟩ := lazybuf.truncate_spec s.out
    (rootOf rooted ++ joinSegs (ddPrefix k ++ N.reverse)).length g.inv (by omega)
  refine ⟨{ r := s.r + 2, dotdot := s.dotdot,
            out := { s.out with w := (rootOf rooted ++ joinSegs (ddPrefix k ++ N.reverse)).length } },
    k, N, ?_, ?_, by simp, ?_⟩
  · have hgt : s.out.w > s.dotdot := by omega
    simp [cleanStep, e, isPathSeparator_dot, hd1, hd2, hgt, hb]
  · exact
      { inv := i1
        hpath := g.hpath
        content := by rw [i2, hX, List.take_left]
        hdd := g.hdd
        hroot := g.hroot
        hN := fun t1 h1 => g.hN t1 (List.mem_cons_of_mem _ h1)
        root_le := by
          have := g.root_le
          show (rootOf rooted).length ≤ s.r + 2
          omega
        r_le := by
          show s.r + 2 ≤ path.length
          omega
        w_le := by
          have := g.w_le
          show (rootOf rooted ++ joinSegs (ddPrefix k ++ N.reverse)).length ≤ s.r + 2
          omega
        slack := fun _ => Or.inr (after_segment hdrop ht (show s.r + 2 ≤ path.length by omega)) }
  · rw [h, segments_append [dot, dot] tail noSep_dotdot ht]
    simp only
    rw [hdrop]
    have hkeep : keepSeg [dot, dot] = true := by decide
    simp [hkeep, stackStep, ht3]

theorem stackStep_dotdot_top (rooted : Bool) (k : Nat) (hroot : rooted = true → k = 0) :
    stackStep rooted (ddPrefix k) [dot, dot] = ddPrefix (if rooted then 0 else k + 1) := by
  cases rooted with
  | true =>
    rw [hroot rfl]
    simp [stackStep, ddPrefix]
  | false =>
    cases k with
    | zero => simp [stackStep, ddPrefix]
    | succ k => simp [stackStep, ddPrefix, List.replicate_succ]

theorem step_dotdot_top (path : List Byte) (rooted : Bool) (s : cleanState) (k : Nat)
    (g : Good path rooted s k []) (tail : List Byte)
    (h : path.drop s.r = [dot, dot] ++ tail) (ht : sepHead tail) :
    ∃ s1 k1 N1, cleanStep path rooted s = some s1 ∧ Good path rooted s1 k1 N1 ∧
      s.r < s1.r ∧
      (segments (path.drop s.r)).foldl (stackStep rooted) ([] ++ ddPrefix k) =
        (segments (path.drop s1.r)).foldl (stackStep rooted) (N1 ++ ddPrefix k1) := by
  obtain ⟨hr, e, _⟩ := drop_cons_inv (show path.drop s.r = dot :: (dot :: tail) from h)
  have hlen : path.length = s.r + (tail.length + 2) := by
    have := length_of_drop h g.r_le
    simpa using this
  have hdrop : path.drop (s.r + 2) = tail := drop_append_length h
  have hd1 := isDotElem_spec path s.r [dot, dot] tail h (by simp) noSep_dotdot ht
  have hd2 := isDotDotElem_spec path s.r [dot, dot] tail h (by simp) noSep_dotdot ht (by simp)
  have hweq : s.out.w = s.dotdot := by
    rw [g.w_eq, g.hdd]
    simp
  have hngt : ¬ s.out.w > s.dotdot := by omega
  have hkeep : keepSeg [dot, dot] = true := by decide
  have hstep := stackStep_dotdot_top rooted k g.hroot
  have hspec : ∀ r1 k1, path.drop r1 = tail → ddPrefix k1 = ddPrefix (if rooted then 0 else k + 1) →
      (segments (path.drop s.r)).foldl (stackStep rooted) ([] ++ ddPrefix k) =
        (segments (path.drop r1)).foldl (stackStep rooted) ([] ++ ddPrefix k1) := by
    intro r1 k1 h1 h2
    rw [h, segments_append [dot, dot] tail noSep_dotdot ht, h1, h2]
    simp [hkeep, hstep]
  cases hrt : rooted with
  | true =>
    have hk : k = 0 := g.hroot hrt
    refine ⟨{ s with r := s.r + 2 }, 0, [], ?_, ?_, by simp, ?_⟩
    · simp [cleanStep, e, isPathSeparator_dot, hd1, hd2, hngt]
    · rw [← hrt]
      exact
        { inv := g.inv
          hpath := g.hpath
          content := by rw [g.content, hk]
          hdd := by rw [g.hdd, hk]
          hroot := fun _ => rfl
          hN := by simp
          root_le := by
            have := g.root_le
            show (rootOf rooted).length ≤ s.r + 2
            omega
          r_le := by
            show s.r + 2 ≤ path.length
            omega
          w_le := by
            have := g.w_le
            show s.out.w ≤ s.r + 2
            omega
          slack := fun _ =>
            Or.inr (after_segment hdrop ht (show s.r + 2 ≤ path.length by omega)) }
    · rw [← hrt]
      exact hspec (s.r + 2) 0 hdrop (by simp [hrt])
  | false =>
    subst hrt
    have hB : k ≠ 0 → s.out.w + 1 ≤ s.r := by
      intro hk
      rcases g.slack (Or.inl hk) with h1 | h1 | ⟨c, hc1, hc2⟩
      · exact h1
      · omega
      · rw [e] at hc1
        cases hc1
        simp [isPathSeparator_dot] at hc2
    have h1 : ∃ o1, (if s.out.w > 0 then s.out.append PathSeparator else some s.out) = some o1 ∧
        o1.inv ∧ o1.path = path ∧ o1.w ≤ s.r ∧
        o1.content ++ [dot, dot] = joinSegs (ddPrefix (k + 1)) := by
      by_cases hk : k = 0
      · have hw0 : s.out.w = 0 := by
          rw [g.w_eq, hk]
          simp [rootOf, ddPrefix, joinSegs]
        refine ⟨s.out, by simp [hw0], g.inv, g.hpath, by omega, ?_⟩
        rw [g.content, hk]
        simp [rootOf, ddPrefix, joinSegs]
      · have hne : ddPrefix k ≠ [] := fun hc => hk ((ddPrefix_eq_nil k).1 hc)
        have hw0 : s.out.w > 0 := by
          rcases Nat.eq_zero_or_pos s.out.w with h0 | h0
          · exfalso
            have hc := g.content
            have hl := lazybuf.content_length _ g.inv
            rw [h0] at hl
            rw [List.length_eq_zero.1 hl] at hc
            simp [rootOf] at hc
            exact hne (joinSegs_eq_nil _ (fun t ht1 => g.segs_ne t (by simpa using ht1)) hc)
          · exact h0
        have hBk := hB hk
        obtain ⟨o1, a1, a2, a3, a4, a5⟩ :=
          s.out.append_spec PathSeparator g.inv (by rw [g.hpath]; omega)
        refine ⟨o1, by simp [hw0, a1], a2, by rw [a3, g.hpath], by omega, ?_⟩
        rw [a5, g.content, ddPrefix_succ, joinSegs_append_singleton]
        simp [rootOf, hne]
    obtain ⟨o1, a1, a2, a3, a4, a5⟩ := h1
    obtain ⟨o2, b1, b2, b3, b4, b5⟩ := o1.append_spec dot a2 (by rw [a3]; omega)
    obtain ⟨o3, c1, c2, c3, c4, c5⟩ := o2.append_spec dot b2 (by rw [b3, a3]; omega)
    have hc3 : o3.content = joinSegs (ddPrefix (k + 1)) := by
      rw [c5, b5, ← a5]
      simp
    refine ⟨{ r := s.r + 2, dotdot := o3.w, out := o3 }, k + 1, [], ?_, ?_, by simp, ?_⟩
    · simp only [gt_iff_lt] at a1
      simp [cleanStep, e, isPathSeparator_dot, hd1, hd2, hngt, a1, b1, c1]
    · exact
        { inv := c2
          hpath := by rw [c3, b3, a3]
          content := by
            rw [hc3]
            simp [rootOf]
          hdd := by
            show o3.w = _
            rw [← lazybuf.content_length _ c2, hc3]
            simp [rootOf]
          hroot := by simp
          hN := by simp
          root_le := by simp [rootOf]
          r_le := by
            show s.r + 2 ≤ path.length
            omega
          w_le := by
            show o3.w ≤ s.r + 2
            omega
          slack := fun _ =>
            Or.inr (after_segment hdrop ht (show s.r + 2 ≤ path.length by omega)) }
    · exact hspec (s.r + 2) (k + 1) hdrop (by simp)

theorem step_elem (path : List Byte) (rooted : Bool) (s : cleanState) (k : Nat)
    (N : List (List Byte)) (g : Good path rooted s k N) (seg tail : List Byte)
    (h : path.drop s.r = seg ++ tail) (hs : noSep seg) (ht : sepHead tail)
    (hne : seg ≠ []) (hn1 : seg ≠ [dot]) (hn2 : seg ≠ [dot, dot]) :
    ∃ s1 k1 N1, cleanStep path rooted s = some s1 ∧ Good path rooted s1 k1 N1 ∧
      s.r < s1.r ∧
      (segments (path.drop s.r)).foldl (stackStep rooted) (N ++ ddPrefix k) =
        (segments (path.drop s1.r)).foldl (stackStep rooted) (N1 ++ ddPrefix k1) := by
  obtain ⟨c, seg1, hseg⟩ : ∃ c seg1, seg = c :: seg1 := by
    cases seg with
    | nil => exact absurd rfl hne
    | cons c seg1 => exact ⟨c, seg1, rfl⟩
  have hc : IsPathSeparator c = false := hs c (by simp [hseg])
  obtain ⟨hr, e, _⟩ := drop_cons_inv (show path.drop s.r = c :: (seg1 ++ tail) by
    rw [h, hseg]; rfl)
  have hlen : path.length = s.r + (seg.length + tail.length) := by
    have := length_of_drop h g.r_le
    simpa using this
  have hpos : 0 < seg.length := by
    rw [hseg]
    simp
  have hdrop : path.drop (s.r + seg.length) = tail := drop_append_length h
  have hd1 : isDotElem path s.r = some false := by
    rw [isDotElem_spec path s.r seg tail h hne hs ht]
    simp [hn1]
  have hd2 : isDotDotElem path s.r = some false := by
    rw [isDotDotElem_spec path s.r seg tail h hne hs ht hn1]
    simp [hn2]
  have hj : joinSegs (ddPrefix k ++ N.reverse) = [] ↔ ddPrefix k ++ N.reverse = [] := by
    constructor
    · exact joinSegs_eq_nil _ g.segs_ne
    · intro h0
      rw [h0]
      rfl
  have hw := g.w_eq
  have hB : ddPrefix k ++ N.reverse ≠ [] → s.out.w + 1 ≤ s.r := by
    intro hL
    have hkN : k ≠ 0 ∨ N ≠ [] := by
      by_contra hcon
      push_neg at hcon
      apply hL
      rw [hcon.1, hcon.2]
      rfl
    rcases g.slack hkN with h1 | h1 | ⟨c1, hc1, hc2⟩
    · exact h1
    · omega
    · rw [e] at hc1
      cases hc1
      simp [hc] at hc2
  have h1 : ∃ o1, (if (rooted && s.out.w != 1 || !rooted && s.out.w != 0) = true
        then s.out.append PathSeparator else some s.out) = some o1 ∧
      o1.inv ∧ o1.path = path ∧ o1.w ≤ s.r ∧
      o1.content ++ seg = rootOf rooted ++ joinSegs ((ddPrefix k ++ N.reverse) ++ [seg]) := by
    by_cases hL : ddPrefix k ++ N.reverse = []
    · have hcv : (rooted && s.out.w != 1 || !rooted && s.out.w != 0) = false := by
        rw [hw, hL]
        cases rooted <;> simp [rootOf, joinSegs]
      refine ⟨s.out, by simp [hcv], g.inv, g.hpath, g.w_le, ?_⟩
      rw [g.content, hL]
      simp [joinSegs]
    · have hjn : (joinSegs (ddPrefix k ++ N.reverse)).length ≠ 0 := by
        intro h0
        exact hL (hj.1 (List.length_eq_zero.1 h0))
      have hcv : (rooted && s.out.w != 1 || !rooted && s.out.w != 0) = true := by
        rw [hw]
        cases rooted <;> simp [rootOf, hjn]
      have hBL := hB hL
      obtain ⟨o1, a1, a2, a3, a4, a5⟩ :=
        s.out.append_spec PathSeparator g.inv (by rw [g.hpath]; omega)
      refine ⟨o1, by simp [hcv, a1], a2, by rw [a3, g.hpath], by omega, ?_⟩
      rw [a5, g.content, joinSegs_append_singleton]
      simp [hL]
  obtain ⟨o1, a1, a2, a3, a4, a5⟩ := h1
  obtain ⟨o2, b1, b2, b3, b4, b5⟩ :=
    copyElem_spec path tail ht seg (path.length - s.r) s.r o1 hs h (by omega) a2 a3 a4
  refine ⟨{ r := s.r + seg.length, dotdot := s.dotdot, out := o2 }, k, seg :: N, ?_, ?_, ?_, ?_⟩
  · unfold cleanStep
    simp only [e, hc, hd1, hd2]
    rw [a1]
    simp only [b1]
    simp
  · exact
      { inv := b2
        hpath := b3
        content := by
          rw [b5, a5]
          simp
        hdd := g.hdd
        hroot := g.hroot
        hN := by
          intro t1 h1
          rcases List.mem_cons.1 h1 with h2 | h2
          · rw [h2]
            exact ⟨hne, hs, hn2⟩
          · exact g.hN t1 h2
        root_le := by
          have := g.root_le
          show (rootOf rooted).length ≤ s.r + seg.length
          omega
        r_le := by
          show s.r + seg.length ≤ path.length
          omega
        w_le := by
          show o2.w ≤ s.r + seg.length
          omega
        slack := fun _ =>
          Or.inr (after_segment hdrop ht (show s.r + seg.length ≤ path.length by omega)) }
  · show s.r < s.r + seg.length
    omega
  · rw [h, segments_append seg tail hs ht]
    simp only
    rw [hdrop]
    have hkeep : keepSeg seg = true := by simp [keepSeg, hne, hn1]
    simp [hkeep, stackStep, hn2]

theorem cleanStep_good (path : List Byte) (rooted : Bool) (s : cleanState) (k : Nat)
    (N : List (List Byte)) (g : Good path rooted s k N) (hr : s.r < path.length) :
    ∃ s1 k1 N1, cleanStep path rooted s = some s1 ∧ Good path rooted s1 k1 N1 ∧
      s.r < s1.r ∧
      (segments (path.drop s.r)).foldl (stackStep rooted) (N ++ ddPrefix k) =
        (segments (path.drop s1.r)).foldl (stackStep rooted) (N1 ++ ddPrefix k1) := by
  cases hdrop : path.drop s.r with
  | nil =>
    have := length_of_drop hdrop g.r_le
    simp at this
    omega
  | cons c rest =>
    rw [← hdrop]
    by_cases hc : IsPathSeparator c = true
    · exact step_sep path rooted s k N g c rest hdrop hc
    · obtain ⟨seg, tail, hl, hs, ht, hne⟩ := seg_decomp (path.drop s.r)
      have hne1 : seg ≠ [] := hne c (by rw [hdrop]; rfl) (by simpa using hc)
      by_cases h1 : seg = [dot]
      · rw [h1] at hl
        exact step_dot path rooted s k N g tail hl ht
      · by_cases h2 : seg = [dot, dot]
        · rw [h2] at hl
          cases N with
          | nil => exact step_dotdot_top path rooted s k g tail hl ht
          | cons t N => exact step_dotdot_pop path rooted s k t N g tail hl ht
        · exact step_elem path rooted s k N g seg tail hl hs ht hne1 h1 h2

theorem cleanLoop_good (path : List Byte) (rooted : Bool) :
    ∀ (fuel : Nat) (s : cleanState) (k : Nat) (N : List (List Byte)),
      Good path rooted s k N → path.length - s.r ≤ fuel →
      ∃ s1 k1 N1, cleanLoop path rooted fuel s = some s1 ∧ Good path rooted s1 k1 N1 ∧
        s1.r = path.length ∧
        (segments (path.drop s.r)).foldl (stackStep rooted) (N ++ ddPrefix k) =
          N1 ++ ddPrefix k1 := by
  intro fuel
  induction fuel with
  | zero =>
    intro s k N g hf
    have hr : s.r = path.length := by
      have := g.r_le
      omega
    refine ⟨s, k, N, ?_, g, hr, ?_⟩
    · rw [cleanLoop]
      simp [hr]
    · rw [hr, List.drop_length, segments_nil]
      rfl
  | succ fuel ih =>
    intro s k N g hf
    by_cases hr : s.r < path.length
    · obtain ⟨s1, k1, N1, e1, g1, hlt, hspec⟩ := cleanStep_good path rooted s k N g hr
      obtain ⟨s2, k2, N2, e2, g2, hr2, hspec2⟩ := ih s1 k1 N1 g1 (by omega)
      refine ⟨s2, k2, N2, ?_, g2, hr2, ?_⟩
      · rw [cleanLoop]
        simp only [hr, if_true, e1]
        exact e2
      · rw [hspec, hspec2]
    · have hr1 : s.r = path.length := by
        have := g.r_le
        omega
      refine ⟨s, k, N, ?_, g, hr1, ?_⟩
      · rw [cleanLoop]
        simp [hr]
      · rw [hr1, List.drop_length, segments_nil]
        rfl

theorem isAbs_cons (c0 : Byte) (rest : List Byte) :
    IsAbs (c0 :: rest) = IsPathSeparator c0 := by
  simp only [IsAbs, IsPathSeparator, List.isPrefixOf, Bool.and_true]
  by_cases h : c0 = PathSeparator
  · simp [h]
  · have h1 : ¬ PathSeparator = c0 := fun e => h e.symm
    simp [h, h1]

theorem cleanInit_good (c0 : Byte) (rest : List Byte) :
    ∃ s0, cleanInit (c0 :: rest) (IsPathSeparator c0) = some s0 ∧
      Good (c0 :: rest) (IsPathSeparator c0) s0 0 [] ∧
      segments ((c0 :: rest).drop s0.r) = segments (c0 :: rest) := by
  have hinv0 : ({ path := c0 :: rest, buf := none, w := 0 } : lazybuf).inv :=
    ⟨Nat.zero_le _, by intro buf hb; cases hb⟩
  cases hrt : IsPathSeparator c0 with
  | true =>
    obtain ⟨o1, a1, a2, a3, a4, a5⟩ :=
      lazybuf.append_spec { path := c0 :: rest, buf := none, w := 0 } PathSeparator hinv0
        (by simp)
    refine ⟨{ r := 1, dotdot := 1, out := o1 }, ?_, ?_, ?_⟩
    · simp [cleanInit, a1]
    · exact
        { inv := a2
          hpath := a3
          content := by
            rw [a5]
            simp [lazybuf.content, rootOf, ddPrefix, joinSegs]
          hdd := by simp [rootOf, ddPrefix, joinSegs]
          hroot := fun _ => rfl
          hN := by simp
          root_le := by simp [rootOf]
          r_le := by simp
          w_le := by
            show o1.w ≤ 1
            rw [a4]
          slack := by simp }
    · simp [segments_sep_cons c0 rest hrt]
  | false =>
    refine ⟨{ r := 0, dotdot := 0, out := { path := c0 :: rest, buf := none, w := 0 } },
      ?_, ?_, ?_⟩
    · simp [cleanInit]
    · exact
        { inv := hinv0
          hpath := rfl
          content := by simp [lazybuf.content, rootOf, ddPrefix, joinSegs]
          hdd := by simp [rootOf, ddPrefix, joinSegs]
          hroot := by simp
          hN := by simp
          root_le := by simp [rootOf]
          r_le := by simp
          w_le := by simp
          slack := by simp }
    · simp

theorem reverse_stack (k : Nat) (N : List (List Byte)) :
    (N ++ ddPrefix k).reverse = ddPrefix k ++ N.reverse := by
  simp [ddPrefix]

/-- A run of `Clean` on a non-empty path: the final state of the main loop
satisfies the invariant, has consumed the input, and holds the reference stack;
the result is its output, or `"."` when nothing was written. -/
theorem Clean_run (c0 : Byte) (rest : List Byte) :
    ∃ s1 k1 N1, Good (c0 :: rest) (IsPathSeparator c0) s1 k1 N1 ∧
      s1.r = (c0 :: rest).length ∧
      (segments (c0 :: rest)).foldl (stackStep (IsPathSeparator c0)) [] = N1 ++ ddPrefix k1 ∧
      Clean (c0 :: rest) = some (if s1.out.w = 0 then [dot] else s1.out.content) := by
  obtain ⟨s0, e0, g0, hseg0⟩ := cleanInit_good c0 rest
  obtain ⟨s1, k1, N1, e1, g1, hr1, hspec⟩ :=
    cleanLoop_good (c0 :: rest) (IsPathSeparator c0) (c0 :: rest).length s0 0 [] g0
      (by omega)
  rw [hseg0] at hspec
  refine ⟨s1, k1, N1, g1, hr1, by simpa [ddPrefix] using hspec, ?_⟩
  have hwl := lazybuf.content_length _ g1.inv
  unfold Clean
  simp only [e0, e1]
  by_cases hw : s1.out.w = 0
  · obtain ⟨o, a1, a2, a3, a4, a5⟩ :=
      s1.out.append_spec dot g1.inv (by rw [g1.hpath, hw]; simp)
    have hnil : s1.out.content = [] := by
      rw [hw] at hwl
      exact List.length_eq_zero.1 hwl
    simp only [hw, if_true, a1]
    rw [lazybuf.string_eq _ a2, a5, hnil]
    rfl
  · simp only [hw, if_false]
    exact lazybuf.string_eq _ g1.inv

/-- The function `Clean` returns, and its result is the reference normalisation. -/
theorem Clean_eq_cleanRef (p : List Byte) : Clean p = some (cleanRef p) := by
  cases p with
  | nil => decide
  | cons c0 rest =>
    obtain ⟨s1, k1, N1, g1, _, hst, hres⟩ := Clean_run c0 rest
    have hbody : rootOf (IsAbs (c0 :: rest)) ++
        joinSegs ((segments (c0 :: rest)).foldl (stackStep (IsAbs (c0 :: rest))) []).reverse =
        s1.out.content := by
      rw [isAbs_cons, hst, reverse_stack, g1.content]
    have hwl := lazybuf.content_length _ g1.inv
    rw [hres]
    unfold cleanRef
    simp only [hbody]
    by_cases hw : s1.out.w = 0
    · have hnil : s1.out.content = [] := by
        rw [hw] at hwl
        exact List.length_eq_zero.1 hwl
      simp [hw, hnil]
    · have hne : s1.out.content ≠ [] := by
        intro h0
        rw [h0] at hwl
        exact hw hwl.symm
      simp [hw, hne]

/-- The result of `Clean` is no longer than its input, the empty input apart. -/
theorem Clean_length (p : List Byte) :
    ∃ q, Clean p = some q ∧ q.length ≤ max p.length 1 := by
  cases p with
  | nil => exact ⟨[dot], rfl, by simp⟩
  | cons c0 rest =>
    obtain ⟨s1, k1, N1, g1, hr, _, hres⟩ := Clean_run c0 rest
    refine ⟨_, hres, ?_⟩
    by_cases hw : s1.out.w = 0
    · simp [hw]
    · have hwl := lazybuf.content_length _ g1.inv
      have := g1.w_le
      simp only [hw, if_false, hwl]
      rw [hr] at this
      exact le_trans this (le_max_left _ _)

/-! ## The shape of the reference normalisation -/

theorem mem_splitSep_noSep (p : List Byte) : ∀ s ∈ splitSep p, noSep s := by
  induction p with
  | nil =>
    intro s hs
    simp [splitSep] at hs
    rw [hs]
    exact noSep_nil
  | cons c cs ih =>
    intro s hs
    rw [splitSep_cons] at hs
    by_cases hc : IsPathSeparator c = true
    · simp only [hc, if_true, List.mem_cons] at hs
      rcases hs with h | h
      · rw [h]
        exact noSep_nil
      · exact ih s h
    · have hcf : IsPathSeparator c = false := by simpa using hc
      simp only [hcf, Bool.false_eq_true, if_false] at hs
      cases hsp : splitSep cs with
      | nil =>
        rw [hsp] at hs
        simp at hs
        rw [hs]
        exact (noSep_cons c []).2 ⟨hcf, noSep_nil⟩
      | cons s0 ss =>
        rw [hsp] at hs ih
        simp only [List.mem_cons] at hs
        rcases hs with h | h
        · rw [h]
          exact (noSep_cons c s0).2 ⟨hcf, ih s0 (by simp)⟩
        · exact ih s (by simp [h])

theorem mem_segments (p : List Byte) :
    ∀ s ∈ segments p, s ≠ [] ∧ s ≠ [dot] ∧ noSep s := by
  intro s hs
  rw [segments, List.mem_filter] at hs
  have hk : s ≠ [] ∧ s ≠ [dot] := by simpa [keepSeg] using hs.2
  exact ⟨hk.1, hk.2, mem_splitSep_noSep p s hs.1⟩

theorem stackStep_canon (rooted : Bool) (k : Nat) (N : List (List Byte)) (s : List Byte)
    (hc : Canon rooted k N) (h0 : s ≠ []) (h1 : s ≠ [dot]) (hs : noSep s) :
    ∃ k1 N1, stackStep rooted (N ++ ddPrefix k) s = N1 ++ ddPrefix k1 ∧ Canon rooted k1 N1 := by
  by_cases h2 : s = [dot, dot]
  · rw [h2]
    cases N with
    | nil =>
      refine ⟨if rooted then 0 else k + 1, [], ?_, ?_, by simp⟩
      · simpa using stackStep_dotdot_top rooted k hc.1
      · intro hr
        simp [hr]
    | cons t N =>
      have ht := (hc.2 t (by simp)).2.2.2
      refine ⟨k, N, by simp [stackStep, ht], hc.1, ?_⟩
      intro t1 h
      exact hc.2 t1 (List.mem_cons_of_mem _ h)
  · refine ⟨k, s :: N, by simp [stackStep, h2], hc.1, ?_⟩
    intro t1 h
    rcases List.mem_cons.1 h with h3 | h3
    · rw [h3]
      exact ⟨h0, hs, h1, h2⟩
    · exact hc.2 t1 h3

theorem foldl_canon (rooted : Bool) :
    ∀ (segs : List (List Byte)) (k : Nat) (N : List (List Byte)),
      (∀ s ∈ segs, s ≠ [] ∧ s ≠ [dot] ∧ noSep s) → Canon rooted k N →
      ∃ k1 N1, segs.foldl (stackStep rooted) (N ++ ddPrefix k) = N1 ++ ddPrefix k1 ∧
        Canon rooted k1 N1 := by
  intro segs
  induction segs with
  | nil =>
    intro k N _ hc
    exact ⟨k, N, rfl, hc⟩
  | cons s segs ih =>
    intro k N hsegs hc
    obtain ⟨h0, h1, hs⟩ := hsegs s (by simp)
    obtain ⟨k1, N1, e1, c1⟩ := stackStep_canon rooted k N s hc h0 h1 hs
    obtain ⟨k2, N2, e2, c2⟩ := ih k1 N1 (fun t ht => hsegs t (List.mem_cons_of_mem _ ht)) c1
    exact ⟨k2, N2, by rw [List.foldl_cons, e1, e2], c2⟩

/-- The reference normalisation is the rendering of a stack in canonical shape. -/
theorem cleanRef_shape (p : List Byte) :
    ∃ k N, Canon (IsAbs p) k N ∧
      cleanRef p =
        if rootOf (IsAbs p) ++ joinSegs (ddPrefix k ++ N.reverse) = [] then [dot]
        else rootOf (IsAbs p) ++ joinSegs (ddPrefix k ++ N.reverse) := by
  obtain ⟨k, N, e, c⟩ := foldl_canon (IsAbs p) (segments p) 0 []
    (mem_segments p) ⟨fun _ => rfl, by simp⟩
  refine ⟨k, N, c, ?_⟩
  have e1 : (segments p).foldl (stackStep (IsAbs p)) [] = N ++ ddPrefix k := by
    simpa [ddPrefix] using e
  unfold cleanRef
  simp only [e1, reverse_stack]

theorem Canon.segs {rooted : Bool} {k : Nat} {N : List (List Byte)} (hc : Canon rooted k N) :
    ∀ t ∈ ddPrefix k ++ N.reverse, t ≠ [] ∧ noSep t ∧ t ≠ [dot] := by
  intro t ht
  rcases List.mem_append.1 ht with h | h
  · rw [ddPrefix, List.mem_replicate] at h
    rw [h.2]
    exact ⟨by simp, noSep_dotdot, by simp⟩
  · have := hc.2 t (List.mem_reverse.1 h)
    exact ⟨this.1, this.2.1, this.2.2.1⟩

theorem splitSep_joinSegs (L : List (List Byte)) (hL : L ≠ []) (hs : ∀ t ∈ L, noSep t) :
    splitSep (joinSegs L) = L := by
  induction L with
  | nil => exact absurd rfl hL
  | cons a L ih =>
    cases L with
    | nil =>
      have := splitSep_append a [] (hs a (by simp)) (by intro c hc; simp at hc)
      simpa [joinSegs, splitSep] using this
    | cons b L =>
      have ih1 := ih (by simp) (fun t ht => hs t (List.mem_cons_of_mem _ ht))
      have := splitSep_append a (PathSeparator :: joinSegs (b :: L)) (hs a (by simp))
        (by intro c hc; simp at hc; rw [← hc]; exact isPathSeparator_sep)
      rw [splitSep_cons] at this
      simp only [isPathSeparator_sep, if_true, List.tail_cons, ih1] at this
      simpa [joinSegs] using this

theorem segments_joinSegs (L : List (List Byte))
    (hs : ∀ t ∈ L, t ≠ [] ∧ noSep t ∧ t ≠ [dot]) : segments (joinSegs L) = L := by
  by_cases hL : L = []
  · rw [hL]
    exact segments_nil
  · rw [segments, splitSep_joinSegs L hL (fun t ht => (hs t ht).2.1), List.filter_eq_self]
    intro t ht
    simp [keepSeg, (hs t ht).1, (hs t ht).2.2]

theorem foldl_ddPrefix (k : Nat) :
    (ddPrefix k).foldl (stackStep false) [] = ddPrefix k := by
  induction k with
  | zero => rfl
  | succ k ih =>
    rw [ddPrefix_succ, List.foldl_append, ih, List.foldl_cons, List.foldl_nil,
      stackStep_dotdot_top false k (by simp)]
    simp [ddPrefix_succ]

theorem foldl_push (rooted : Bool) :
    ∀ (M st : List (List Byte)), (∀ t ∈ M, t ≠ [dot, dot]) →
      M.foldl (stackStep rooted) st = M.reverse ++ st := by
  intro M
  induction M with
  | nil => intro st _; rfl
  | cons t M ih =>
    intro st h
    have ht : t ≠ [dot, dot] := h t (by simp)
    rw [List.foldl_cons, ih _ (fun t1 h1 => h t1 (List.mem_cons_of_mem _ h1))]
    simp [stackStep, ht]

theorem foldl_canon_segs (rooted : Bool) (k : Nat) (N : List (List Byte))
    (hc : Canon rooted k N) :
    (ddPrefix k ++ N.reverse).foldl (stackStep rooted) [] = N ++ ddPrefix k := by
  have h1 : (ddPrefix k).foldl (stackStep rooted) [] = ddPrefix k := by
    cases hr : rooted with
    | true =>
      rw [hc.1 hr]
      rfl
    | false => exact foldl_ddPrefix k
  rw [List.foldl_append, h1, foldl_push rooted N.reverse (ddPrefix k)]
  · simp
  · intro t ht
    exact (hc.2 t (List.mem_reverse.1 ht)).2.2.2

theorem joinSegs_cons_cons (c : Byte) (t : List Byte) (L : List (List Byte)) :
    ∃ Z, joinSegs ((c :: t) :: L) = c :: Z := by
  cases L with
  | nil => exact ⟨t, rfl⟩
  | cons b L => exact ⟨t ++ PathSeparator :: joinSegs (b :: L), rfl⟩

theorem isAbs_body (rooted : Bool) (k : Nat) (N : List (List Byte)) (hc : Canon rooted k N)
    (hne : rootOf rooted ++ joinSegs (ddPrefix k ++ N.reverse) ≠ []) :
    IsAbs (rootOf rooted ++ joinSegs (ddPrefix k ++ N.reverse)) = rooted := by
  cases hr : rooted with
  | true =>
    simp only [rootOf, if_true, List.singleton_append, isAbs_cons]
    exact isPathSeparator_sep
  | false =>
    rw [hr] at hne
    simp only [rootOf, Bool.false_eq_true, if_false, List.nil_append] at hne ⊢
    cases hL : ddPrefix k ++ N.reverse with
    | nil =>
      rw [hL] at hne
      exact absurd rfl hne
    | cons t L =>
      have ht := hc.segs t (by rw [hL]; simp)
      cases t with
      | nil => exact absurd rfl ht.1
      | cons c t =>
        obtain ⟨Z, hZ⟩ := joinSegs_cons_cons c t L
        rw [hZ, isAbs_cons]
        exact ht.2.1 c (by simp)

theorem cleanRef_canon (rooted : Bool) (k : Nat) (N : List (List Byte)) (hc : Canon rooted k N)
    (hne : rootOf rooted ++ joinSegs (ddPrefix k ++ N.reverse) ≠ []) :
    cleanRef (rootOf rooted ++ joinSegs (ddPrefix k ++ N.reverse)) =
      rootOf rooted ++ joinSegs (ddPrefix k ++ N.reverse) := by
  have habs := isAbs_body rooted k N hc hne
  have hseg : segments (rootOf rooted ++ joinSegs (ddPrefix k ++ N.reverse)) =
      ddPrefix k ++ N.reverse := by
    cases hr : rooted with
    | true =>
      simp only [rootOf, if_true, List.singleton_append]
      rw [segments_sep_cons _ _ isPathSeparator_sep]
      exact segments_joinSegs _ hc.segs
    | false =>
      simp only [rootOf, Bool.false_eq_true, if_false, List.nil_append]
      exact segments_joinSegs _ hc.segs
  unfold cleanRef
  simp only [habs, hseg, foldl_canon_segs rooted k N hc, reverse_stack, hne, if_false]

/-- The reference normalisation is idempotent. -/
theorem cleanRef_idem (p : List Byte) : cleanRef (cleanRef p) = cleanRef p := by
  obtain ⟨k, N, hc, e⟩ := cleanRef_shape p
  by_cases h : rootOf (IsAbs p) ++ joinSegs (ddPrefix k ++ N.reverse) = []
  · rw [e]
    simp only [h, if_true]
    decide
  · rw [e]
    simp only [h, if_false]
    exact cleanRef_canon (IsAbs p) k N hc h

/-! ## Separators in a rendered stack -/

theorem noAdjSep_of_noSep (s : List Byte) (hs : noSep s) : noAdjSep s := by
  induction s with
  | nil => exact List.chain'_nil
  | cons a s ih =>
    obtain ⟨ha, hs1⟩ := (noSep_cons a s).1 hs
    refine List.chain'_cons'.2 ⟨?_, ih hs1⟩
    intro y _ h
    rw [ha] at h
    exact absurd h.1 (by simp)

theorem joinSegs_head (L : List (List Byte)) (hs : ∀ t ∈ L, t ≠ [] ∧ noSep t) :
    ∀ c, (joinSegs L).head? = some c → IsPathSeparator c = false := by
  intro c hc
  cases L with
  | nil => simp [joinSegs] at hc
  | cons t L =>
    obtain ⟨h0, h1⟩ := hs t (by simp)
    cases t with
    | nil => exact absurd rfl h0
    | cons a t =>
      obtain ⟨Z, hZ⟩ := joinSegs_cons_cons a t L
      rw [hZ] at hc
      simp at hc
      rw [← hc]
      exact h1 a (by simp)

theorem joinSegs_last (L : List (List Byte)) (hs : ∀ t ∈ L, t ≠ [] ∧ noSep t) :
    ∀ c, (joinSegs L).getLast? = some c → IsPathSeparator c = false := by
  intro c hc
  rcases List.eq_nil_or_concat L with h | ⟨L1, t, h⟩
  · rw [h] at hc
    simp [joinSegs] at hc
  · rw [List.concat_eq_append] at h
    obtain ⟨h0, h1⟩ := hs t (by rw [h]; simp)
    have hZ : ∃ Z, joinSegs L = Z ++ t := by
      rw [h, joinSegs_append_singleton]
      by_cases hL : L1 = []
      · exact ⟨[], by simp [hL]⟩
      · exact ⟨joinSegs L1 ++ [PathSeparator], by simp [hL]⟩
    obtain ⟨Z, hZ⟩ := hZ
    rw [hZ, List.getLast?_append_of_ne_nil _ h0] at hc
    exact h1 c (List.mem_of_mem_getLast? hc)

theorem joinSegs_noAdjSep (L : List (List Byte)) (hs : ∀ t ∈ L, t ≠ [] ∧ noSep t) :
    noAdjSep (joinSegs L) := by
  induction L with
  | nil => exact List.chain'_nil
  | cons a L ih =>
    cases L with
    | nil => exact noAdjSep_of_noSep a (hs a (by simp)).2
    | cons b L =>
      have hs1 : ∀ t ∈ b :: L, t ≠ [] ∧ noSep t := fun t ht => hs t (List.mem_cons_of_mem _ ht)
      have ih1 := ih hs1
      have hhead := joinSegs_head (b :: L) hs1
      have ha := (hs a (by simp)).2
      show noAdjSep (a ++ PathSeparator :: joinSegs (b :: L))
      refine List.chain'_append.2 ⟨noAdjSep_of_noSep a ha, ?_, ?_⟩
      · refine List.chain'_cons'.2 ⟨?_, ih1⟩
        intro y hy h
        rw [hhead y hy] at h
        exact absurd h.2 (by simp)
      · intro x hx y _ h
        rw [ha x (List.mem_of_mem_getLast? hx)] at h
        exact absurd h.1 (by simp)

theorem runs_sep_cons (q : List Byte) : runs (PathSeparator :: q) = runs q := by
  simp [runs, splitSep_cons, isPathSeparator_sep]

theorem runs_joinSegs (L : List (List Byte)) (hs : ∀ t ∈ L, t ≠ [] ∧ noSep t) :
    runs (joinSegs L) = L := by
  by_cases hL : L = []
  · rw [hL]
    simp [runs, joinSegs, splitSep]
  · rw [runs, splitSep_joinSegs L hL (fun t ht => (hs t ht).2), List.filter_eq_self]
    intro t ht
    simp [(hs t ht).1]

/-- The result of the reference normalisation is `"."` for a path that is not
rooted, or the rendering of a stack in canonical shape. -/
theorem cleanRef_cases (p : List Byte) :
    (cleanRef p = [dot] ∧ IsAbs p = false) ∨
    ∃ k N, Canon (IsAbs p) k N ∧ cleanRef p ≠ [] ∧
      cleanRef p = rootOf (IsAbs p) ++ joinSegs (ddPrefix k ++ N.reverse) := by
  obtain ⟨k, N, hc, e⟩ := cleanRef_shape p
  by_cases h : rootOf (IsAbs p) ++ joinSegs (ddPrefix k ++ N.reverse) = []
  · left
    refine ⟨by rw [e]; simp [h], ?_⟩
    cases hr : IsAbs p with
    | true => simp [hr, rootOf] at h
    | false => rfl
  · right
    have e1 : cleanRef p = rootOf (IsAbs p) ++ joinSegs (ddPrefix k ++ N.reverse) := by
      rw [e]
      simp [h]
    exact ⟨k, N, hc, by rw [e1]; exact h, e1⟩

theorem cleanRef_ne_nil (p : List Byte) : cleanRef p ≠ [] := by
  rcases cleanRef_cases p with ⟨h, _⟩ | ⟨_, _, _, h, _⟩
  · rw [h]
    simp
  · exact h

theorem cleanRef_isAbs (p : List Byte) : IsAbs (cleanRef p) = IsAbs p := by
  rcases cleanRef_cases p with ⟨h, h1⟩ | ⟨k, N, hc, hne, e⟩
  · rw [h, h1]
    decide
  · rw [e] at hne ⊢
    exact isAbs_body (IsAbs p) k N hc hne

theorem cleanRef_noAdjSep (p : List Byte) : noAdjSep (cleanRef p) := by
  rcases cleanRef_cases p with ⟨h, _⟩ | ⟨k, N, hc, _, e⟩
  · rw [h]
    exact List.chain'_singleton _
  · have hs : ∀ t ∈ ddPrefix k ++ N.reverse, t ≠ [] ∧ noSep t :=
      fun t ht => ⟨(hc.segs t ht).1, (hc.segs t ht).2.1⟩
    rw [e]
    cases hr : IsAbs p with
    | true =>
      simp only [rootOf, if_true, List.singleton_append]
      refine List.chain'_cons'.2 ⟨?_, joinSegs_noAdjSep _ hs⟩
      intro y hy h
      rw [joinSegs_head _ hs y hy] at h
      exact absurd h.2 (by simp)
    | false =>
      simp only [rootOf, Bool.false_eq_true, if_false, List.nil_append]
      exact joinSegs_noAdjSep _ hs

theorem cleanRef_last (p : List Byte) (c : Byte) (h1 : (cleanRef p).getLast? = some c)
    (h2 : IsPathSeparator c = true) : cleanRef p = [PathSeparator] := by
  rcases cleanRef_cases p with ⟨h, _⟩ | ⟨k, N, hc, _, e⟩
  · rw [h] at h1
    simp at h1
    rw [← h1, isPathSeparator_dot] at h2
    cases h2
  · have hs : ∀ t ∈ ddPrefix k ++ N.reverse, t ≠ [] ∧ noSep t :=
      fun t ht => ⟨(hc.segs t ht).1, (hc.segs t ht).2.1⟩
    have hlast := joinSegs_last _ hs
    rw [e] at h1 ⊢
    by_cases hJ : joinSegs (ddPrefix k ++ N.reverse) = []
    · rw [hJ] at h1 ⊢
      cases hr : IsAbs p with
      | true => simp [rootOf]
      | false =>
        rw [hr] at h1
        simp [rootOf] at h1
    · rw [List.getLast?_append_of_ne_nil _ hJ] at h1
      rw [hlast c h1] at h2
      cases h2

theorem cleanRef_runs (p : List Byte) :
    (cleanRef p = [dot] ∧ IsAbs p = false) ∨
    ∃ k N, runs (cleanRef p) = ddPrefix k ++ N ∧ (IsAbs p = true → k = 0) ∧
      ∀ t ∈ N, t ≠ [dot] ∧ t ≠ [dot, dot] := by
  rcases cleanRef_cases p with h | ⟨k, N, hc, _, e⟩
  · exact Or.inl h
  · right
    have hs : ∀ t ∈ ddPrefix k ++ N.reverse, t ≠ [] ∧ noSep t :=
      fun t ht => ⟨(hc.segs t ht).1, (hc.segs t ht).2.1⟩
    refine ⟨k, N.reverse, ?_, hc.1, ?_⟩
    · rw [e]
      cases hr : IsAbs p with
      | true =>
        simp only [rootOf, if_true, List.singleton_append]
        rw [runs_sep_cons, runs_joinSegs _ hs]
      | false =>
        simp only [rootOf, Bool.false_eq_true, if_false, List.nil_append]
        exact runs_joinSegs _ hs
    · intro t ht
      have := hc.2 t (List.mem_reverse.1 ht)
      exact ⟨this.2.2.1, this.2.2.2⟩

/-! ## Every loop head satisfies the invariant -/

theorem loopHead_good (c0 : Byte) (rest : List Byte) (s : cleanState)
    (h : LoopHead (c0 :: rest) (IsPathSeparator c0) s) :
    ∃ k N, Good (c0 :: rest) (IsPathSeparator c0) s k N := by
  induction h with
  | init s hs =>
    obtain ⟨s0, e0, g0, _⟩ := cleanInit_good c0 rest
    rw [e0] at hs
    cases hs
    exact ⟨0, [], g0⟩
  | step s s1 _ hr hstep ih =>
    obtain ⟨k, N, g⟩ := ih
    obtain ⟨s2, k2, N2, e2, g2, _, _⟩ := cleanStep_good _ _ s k N g hr
    rw [e2] at hstep
    cases hstep
    exact ⟨k2, N2, g2⟩

/-! ## The backward scans of `Split`, `Ext`, `Base` and `Dir` -/

theorem noSep_append (a b : List Byte) (ha : noSep a) (hb : noSep b) : noSep (a ++ b) := by
  intro c hc
  rcases List.mem_append.1 hc with h | h
  · exact ha c h
  · exact hb c h

theorem scanBack_spec (path : List Byte) :
    ∀ j, j ≤ path.length →
      ∃ m : Nat, scanBack path j = some ((m : Int) - 1) ∧ m ≤ j ∧
        noSep ((path.take j).drop m) ∧ (m = 0 ∨ path[m - 1]? = some PathSeparator) := by
  intro j
  induction j with
  | zero =>
    intro _
    exact ⟨0, by simp [scanBack], le_refl _, by simpa using noSep_nil, Or.inl rfl⟩
  | succ j ih =>
    intro hj
    have hlt : j < path.length := by omega
    have hget : path[j]? = some path[j] := List.getElem?_eq_getElem hlt
    by_cases hc : IsPathSeparator path[j] = true
    · refine ⟨j + 1, ?_, le_refl _, ?_, Or.inr ?_⟩
      · rw [scanBack]
        simp [hget, hc]
      · rw [List.drop_eq_nil_of_le (by simp)]
        exact noSep_nil
      · rw [Nat.add_sub_cancel, hget, (isPathSeparator_iff _).1 hc]
    · obtain ⟨m, e, hm, hns, hsep⟩ := ih (by omega)
      refine ⟨m, ?_, by omega, ?_, hsep⟩
      · rw [scanBack]
        simp [hget, hc, e]
      · rw [List.take_succ, hget, List.drop_append_of_le_length (by simp; omega)]
        refine noSep_append _ _ hns ?_
        intro c hcm
        simp at hcm
        rw [hcm]
        simpa using hc

theorem sliceTo_nat (s : List Byte) (m : Nat) (hm : m ≤ s.length) :
    sliceTo s ((m : Int) - 1 + 1) = some (s.take m) := by
  simp [sliceTo, hm]

theorem sliceFrom_nat (s : List Byte) (m : Nat) (hm : m ≤ s.length) :
    sliceFrom s ((m : Int) - 1 + 1) = some (s.drop m) := by
  simp [sliceFrom, hm]

theorem Split_spec (p : List Byte) :
    ∃ m, m ≤ p.length ∧ Split p = some (p.take m, p.drop m) ∧ noSep (p.drop m) ∧
      (m = 0 ∨ p[m - 1]? = some PathSeparator) := by
  obtain ⟨m, e, hm, hns, hsep⟩ := scanBack_spec p p.length (le_refl _)
  refine ⟨m, hm, ?_, by simpa using hns, hsep⟩
  unfold Split
  simp only [e, sliceTo_nat p m hm, sliceFrom_nat p m hm]

theorem extLoop_some (path : List Byte) :
    ∀ j, j ≤ path.length → ∃ e, extLoop path j = some e := by
  intro j
  induction j with
  | zero => intro _; exact ⟨[], rfl⟩
  | succ j ih =>
    intro hj
    have hlt : j < path.length := by omega
    have hget : path[j]? = some path[j] := List.getElem?_eq_getElem hlt
    rw [extLoop]
    simp only [hget]
    by_cases hc : IsPathSeparator path[j] = true
    · exact ⟨[], by simp [hc]⟩
    · by_cases hd : path[j] = dot
      · refine ⟨path.drop j, ?_⟩
        simp [isPathSeparator_dot, hd, sliceFrom, le_of_lt hlt]
      · obtain ⟨e, he⟩ := ih (by omega)
        exact ⟨e, by simp [hc, hd, he]⟩

theorem stripTrailing_some :
    ∀ (fuel : Nat) (path : List Byte), path.length ≤ fuel →
      ∃ q, stripTrailing fuel path = some q := by
  intro fuel
  induction fuel with
  | zero =>
    intro path h
    have h0 : path.length = 0 := by omega
    exact ⟨path, by rw [stripTrailing]; simp [h0]⟩
  | succ fuel ih =>
    intro path h
    rw [stripTrailing]
    by_cases hp : path.length > 0
    · have hget : path[path.length - 1]? = some path[path.length - 1] :=
        List.getElem?_eq_getElem (by omega)
      simp only [hp, if_true, hget]
      by_cases hc : IsPathSeparator path[path.length - 1] = true
      · have hs : sliceTo path ((path.length : Int) - 1) = some (path.take (path.length - 1)) := by
          have := sliceTo_nat path (path.length - 1) (by omega)
          have e : (((path.length - 1 : Nat) : Int) - 1 + 1) = (path.length : Int) - 1 := by
            omega
          rw [e] at this
          exact this
        obtain ⟨q, hq⟩ := ih (path.take (path.length - 1)) (by simp; omega)
        exact ⟨q, by simp [hc, hs, hq]⟩
      · exact ⟨path, by simp [hc]⟩
    · exact ⟨path, by simp [hp]⟩

theorem Base_some (p : List Byte) : ∃ q, Base p = some q := by
  unfold Base
  by_cases hp : p = []
  · exact ⟨[dot], by simp [hp]⟩
  · obtain ⟨p1, h1⟩ := stripTrailing_some p.length p (le_refl _)
    obtain ⟨m, e, hm, _, _⟩ := scanBack_spec p1 p1.length (le_refl _)
    simp only [hp, if_false, h1, e]
    have h2 : ∃ p2, (if (m : Int) - 1 ≥ 0 then sliceFrom p1 ((m : Int) - 1 + 1) else some p1)
        = some p2 := by
      by_cases hi : (m : Int) - 1 ≥ 0
      · exact ⟨p1.drop m, by simp only [hi, if_true, sliceFrom_nat p1 m hm]⟩
      · exact ⟨p1, by simp only [hi, if_false]⟩
    obtain ⟨p2, h2⟩ := h2
    simp only [h2]
    by_cases h3 : p2 = []
    · exact ⟨[PathSeparator], by simp [h3]⟩
    · exact ⟨p2, by simp [h3]⟩

theorem Dir_some (p : List Byte) : ∃ q, Dir p = some q := by
  obtain ⟨m, e, hm, _, _⟩ := scanBack_spec p p.length (le_refl _)
  refine ⟨cleanRef (p.take m), ?_⟩
  unfold Dir
  simp only [e, sliceTo_nat p m hm]
  exact Clean_eq_cleanRef _

/-! ## `Join` -/

theorem Join_spec (elems : List (List Byte)) :
    Join elems =
      if elems.all List.isEmpty then some []
      else Clean (stringsJoin (elems.dropWhile List.isEmpty) [PathSeparator]) := by
  induction elems with
  | nil => rfl
  | cons e es ih =>
    rw [Join]
    by_cases he : e = []
    · simp [he, ih]
    · have h1 : e.isEmpty = false := by
        cases e with
        | nil => exact absurd rfl he
        | cons a e => rfl
      simp [he, h1, List.dropWhile_cons]

/-- The call `strings.Join(e :: rest, sep)` written out: `e`, then for each
further element one separator and the element. -/
theorem stringsJoin_eq_foldl (rest : List (List Byte)) :
    ∀ e : List Byte, stringsJoin (e :: rest) [PathSeparator] =
      rest.foldl (fun acc x => acc ++ [PathSeparator] ++ x) e := by
  induction rest with
  | nil =>
    intro e
    simp [stringsJoin, List.intercalate]
  | cons x rest ih =>
    intro e
    rw [List.foldl_cons, ← ih (e ++ [PathSeparator] ++ x)]
    cases rest with
    | nil => simp [stringsJoin, List.intercalate, List.intersperse]
    | cons y rest => simp [stringsJoin, List.intercalate, List.intersperse]

theorem dropWhile_first_nonempty (pre : List (List Byte)) (e : List Byte)
    (rest : List (List Byte)) (hpre : ∀ x ∈ pre, x = []) (he : e ≠ []) :
    (pre ++ e :: rest).dropWhile List.isEmpty = e :: rest := by
  induction pre with
  | nil =>
    have h1 : e.isEmpty = false := by
      cases e with
      | nil => exact absurd rfl he
      | cons a e => rfl
    simp [List.dropWhile_cons, h1]
  | cons x pre ih =>
    have hx : x = [] := hpre x (by simp)
    rw [hx, List.cons_append, List.dropWhile_cons]
    simp only [List.isEmpty_nil, if_true]
    exact ih (fun y hy => hpre y (List.mem_cons_of_mem _ hy))

/-- The function `Join` written out: skip the leading empty elements; if
nothing is left return `""`, otherwise clean the remaining elements
concatenated with one separator before each element but the first. -/
theorem Join_explicit (elems : List (List Byte)) :
    Join elems =
      match elems.dropWhile List.isEmpty with
      | [] => some []
      | e :: rest => Clean (rest.foldl (fun acc x => acc ++ [PathSeparator] ++ x) e) := by
  induction elems with
  | nil => rfl
  | cons e es ih =>
    rw [Join]
    by_cases he : e = []
    · rw [he, List.dropWhile_cons]
      simp only [ne_eq, not_true_eq_false, if_false, List.isEmpty_nil, if_true]
      exact ih
    · have h1 : e.isEmpty = false := by
        cases e with
        | nil => exact absurd rfl he
        | cons a e => rfl
      rw [List.dropWhile_cons]
      simp only [ne_eq, he, not_false_eq_true, if_true, h1, Bool.false_eq_true, if_false]
      rw [stringsJoin_eq_foldl]

/-! ## Cleaning around a separator -/

theorem splitSep_ne_nil (p : List Byte) : splitSep p ≠ [] := by
  cases p with
  | nil => simp [splitSep]
  | cons c cs =>
    rw [splitSep_cons]
    by_cases hc : IsPathSeparator c = true
    · simp [hc]
    · cases hsp : splitSep cs <;> simp [hc]

theorem splitSep_append_sep (a b : List Byte) :
    splitSep (a ++ PathSeparator :: b) = splitSep a ++ splitSep b := by
  induction a with
  | nil => simp [splitSep, isPathSeparator_sep]
  | cons c a ih =>
    rw [List.cons_append, splitSep_cons, splitSep_cons, ih]
    by_cases hc : IsPathSeparator c = true
    · simp [hc]
    · cases hsp : splitSep a with
      | nil => exact absurd hsp (splitSep_ne_nil a)
      | cons s0 ss => simp [hc]

theorem segments_append_sep (a b : List Byte) :
    segments (a ++ PathSeparator :: b) = segments a ++ segments b := by
  simp [segments, splitSep_append_sep]

theorem isAbs_append (a b : List Byte) (ha : a ≠ []) : IsAbs (a ++ b) = IsAbs a := by
  cases a with
  | nil => exact absurd rfl ha
  | cons c a => rw [List.cons_append, isAbs_cons, isAbs_cons]

theorem cleanRef_congr (x y : List Byte) (h1 : IsAbs x = IsAbs y)
    (h2 : segments x = segments y) : cleanRef x = cleanRef y := by
  unfold cleanRef
  rw [h1, h2]

/-- A trailing separator behind a non-empty path does not change its
normalisation. -/
theorem cleanRef_trailing_sep (x : List Byte) (hx : x ≠ []) :
    cleanRef (x ++ [PathSeparator]) = cleanRef x := by
  refine cleanRef_congr _ _ (isAbs_append x _ hx) ?_
  rw [segments_append_sep, segments_nil, List.append_nil]

/-- Doubling a separator does not change the normalisation. -/
theorem cleanRef_double_sep (a b : List Byte) :
    cleanRef (a ++ PathSeparator :: PathSeparator :: b) = cleanRef (a ++ PathSeparator :: b) := by
  refine cleanRef_congr _ _ ?_ ?_
  · cases a with
    | nil => simp [isAbs_cons]
    | cons c a => simp [isAbs_cons]
  · rw [segments_append_sep, segments_append_sep, segments_sep_cons _ _ isPathSeparator_sep]

theorem Dir_eq (p : List Byte) :
    ∃ m, m ≤ p.length ∧ Split p = some (p.take m, p.drop m) ∧ noSep (p.drop m) ∧
      (m = 0 ∨ p[m - 1]? = some PathSeparator) ∧ Dir p = Clean (p.take m) := by
  obtain ⟨m, e, hm, hns, hsep⟩ := scanBack_spec p p.length (le_refl _)
  refine ⟨m, hm, ?_, by simpa using hns, hsep, ?_⟩
  · unfold Split
    simp only [e, sliceTo_nat p m hm, sliceFrom_nat p m hm]
  · unfold Dir
    simp only [e, sliceTo_nat p m hm]

/-- The cut of `Split` and `Dir` lies just behind the last separator: when the
path is `x ++ [sep] ++ f` with `f` free of separators, the directory part is
`x ++ [sep]`. -/
theorem split_point (x f : List Byte) (hf : noSep f) (m : Nat)
    (hns : noSep ((x ++ PathSeparator :: f).drop m))
    (hsep : m = 0 ∨ (x ++ PathSeparator :: f)[m - 1]? = some PathSeparator) :
    m = x.length + 1 := by
  by_contra hne
  rcases Nat.lt_or_gt_of_ne hne with h | h
  · -- the separator behind `x` would lie in the file part
    have hmem : PathSeparator ∈ (x ++ PathSeparator :: f).drop m := by
      have e : (x ++ PathSeparator :: f).drop m = x.drop m ++ PathSeparator :: f := by
        rw [List.drop_append_of_le_length (by omega)]
      rw [e]
      simp
    have := hns _ hmem
    rw [isPathSeparator_sep] at this
    cases this
  · -- the byte before the cut would be a separator inside `f`
    rcases hsep with h0 | h0
    · omega
    · rw [List.getElem?_append_right (by omega)] at h0
      obtain ⟨j, hj⟩ : ∃ j, m - 1 - x.length = j + 1 := ⟨m - 1 - x.length - 1, by omega⟩
      rw [hj, List.getElem?_cons_succ] at h0
      obtain ⟨hlt, hget⟩ := List.getElem?_eq_some.1 h0
      have := hf PathSeparator (by rw [← hget]; exact List.getElem_mem hlt)
      rw [isPathSeparator_sep] at this
      cases this

/-! ## The final segment: `Ext` and `Base` -/

theorem extLoop_skip (pre b : List Byte) (hb : noSep b) (hd : dot ∉ b) :
    ∀ k, k ≤ b.length → extLoop (pre ++ b) (pre.length + k) = extLoop (pre ++ b) pre.length := by
  intro k
  induction k with
  | zero => intro _; rfl
  | succ k ih =>
    intro hk
    have hlt : k < b.length := by omega
    have hget : (pre ++ b)[pre.length + k]? = some b[k] := by
      rw [List.getElem?_append_right (by omega), Nat.add_sub_cancel_left,
        List.getElem?_eq_getElem hlt]
    have h1 : IsPathSeparator b[k] = false := hb _ (List.getElem_mem hlt)
    have h2 : b[k] ≠ dot := fun e => hd (by rw [← e]; exact List.getElem_mem hlt)
    rw [← Nat.add_assoc, extLoop]
    simp only [hget, h1, h2, Bool.false_eq_true, if_false]
    exact ih (by omega)

theorem extLoop_dot (a b : List Byte) :
    extLoop (a ++ dot :: b) (a.length + 1) = some (dot :: b) := by
  have hget : (a ++ dot :: b)[a.length]? = some dot := by
    rw [List.getElem?_append_right (le_refl _)]
    simp
  rw [extLoop]
  simp [hget, isPathSeparator_dot, sliceFrom]
  omega

theorem extLoop_stop (d s : List Byte) (hd : d = [] ∨ d.getLast? = some PathSeparator) :
    extLoop (d ++ s) d.length = some [] := by
  rcases hd with h | h
  · rw [h]
    rfl
  · obtain ⟨d1, hd1⟩ := List.getLast?_eq_some_iff.1 h
    have hget : (d ++ s)[d1.length]? = some PathSeparator := by
      rw [hd1, List.append_assoc, List.getElem?_append_right (le_refl _)]
      simp
    have hl : d.length = d1.length + 1 := by
      rw [hd1]
      simp
    rw [hl, extLoop]
    simp [hget, isPathSeparator_sep]

theorem Ext_no_dot (d s : List Byte) (hs : noSep s)
    (hd : d = [] ∨ d.getLast? = some PathSeparator) (hdot : dot ∉ s) :
    Ext (d ++ s) = some [] := by
  unfold Ext
  rw [List.length_append, extLoop_skip d s hs hdot s.length (le_refl _)]
  exact extLoop_stop d s hd

theorem Ext_last_dot (d a b : List Byte) (hs : noSep (a ++ dot :: b)) (hdot : dot ∉ b) :
    Ext (d ++ (a ++ dot :: b)) = some (dot :: b) ∧ noSep (dot :: b) := by
  have hb : noSep b := fun c hc => hs c (by simp [hc])
  refine ⟨?_, fun c hc => hs c (List.mem_append_right _ hc)⟩
  unfold Ext
  have e : d ++ (a ++ dot :: b) = (d ++ a ++ [dot]) ++ b := by simp
  have hl : (d ++ (a ++ dot :: b)).length = (d ++ a ++ [dot]).length + b.length := by
    simp
    omega
  rw [hl, e, extLoop_skip (d ++ a ++ [dot]) b hb hdot b.length (le_refl _)]
  have e2 : (d ++ a ++ [dot]) ++ b = (d ++ a) ++ dot :: b := by simp
  have hl2 : (d ++ a ++ [dot]).length = (d ++ a).length + 1 := by
    rw [List.length_append]
    rfl
  rw [e2, hl2]
  exact extLoop_dot (d ++ a) b

theorem scanBack_skip (pre b : List Byte) (hb : noSep b) :
    ∀ k, k ≤ b.length →
      scanBack (pre ++ b) (pre.length + k) = scanBack (pre ++ b) pre.length := by
  intro k
  induction k with
  | zero => intro _; rfl
  | succ k ih =>
    intro hk
    have hlt : k < b.length := by omega
    have hget : (pre ++ b)[pre.length + k]? = some b[k] := by
      rw [List.getElem?_append_right (by omega), Nat.add_sub_cancel_left,
        List.getElem?_eq_getElem hlt]
    have h1 : IsPathSeparator b[k] = false := hb _ (List.getElem_mem hlt)
    rw [← Nat.add_assoc, scanBack]
    simp only [hget, h1, Bool.false_eq_true, if_false]
    exact ih (by omega)

theorem scanBack_stop (d s : List Byte) (hd : d = [] ∨ d.getLast? = some PathSeparator) :
    scanBack (d ++ s) d.length = some ((d.length : Int) - 1) := by
  rcases hd with h | h
  · rw [h]
    rfl
  · obtain ⟨d1, hd1⟩ := List.getLast?_eq_some_iff.1 h
    have hget : (d ++ s)[d1.length]? = some PathSeparator := by
      rw [hd1, List.append_assoc, List.getElem?_append_right (le_refl _)]
      simp
    have hl : d.length = d1.length + 1 := by
      rw [hd1]
      simp
    rw [hl, scanBack]
    simp [hget, isPathSeparator_sep]

theorem scanBack_segment (d s : List Byte) (hs : noSep s)
    (hd : d = [] ∨ d.getLast? = some PathSeparator) :
    scanBack (d ++ s) (d ++ s).length = some ((d.length : Int) - 1) := by
  rw [List.length_append, scanBack_skip d s hs s.length (le_refl _)]
  exact scanBack_stop d s hd

theorem stripTrailing_append (x : List Byte)
    (hx : ∀ c, x.getLast? = some c → IsPathSeparator c = false) :
    ∀ (t : List Byte), (∀ c ∈ t, IsPathSeparator c = true) →
      ∀ fuel, (x ++ t).length ≤ fuel → stripTrailing fuel (x ++ t) = some x := by
  intro t
  induction t using List.reverseRecOn with
  | nil =>
    intro _ fuel _
    rw [List.append_nil]
    have key : ∀ f, stripTrailing f x = some x := by
      intro f
      by_cases hp : x.length > 0
      · have hget : x[x.length - 1]? = some x[x.length - 1] :=
          List.getElem?_eq_getElem (by omega)
        have hlast := hx x[x.length - 1] (by rw [List.getLast?_eq_getElem?, hget])
        cases f <;> rw [stripTrailing] <;> simp [hp, hget, hlast]
      · cases f <;> rw [stripTrailing] <;> simp [hp]
    exact key fuel
  | append_singleton t c ih =>
    intro ht fuel hf
    have hc : IsPathSeparator c = true := ht c (by simp)
    have hlen : (x ++ (t ++ [c])).length = (x ++ t).length + 1 := by simp; omega
    have hget : (x ++ (t ++ [c]))[(x ++ (t ++ [c])).length - 1]? = some c := by
      rw [hlen, Nat.add_sub_cancel, ← List.append_assoc]
      exact List.getElem?_concat_length _ _
    cases fuel with
    | zero => omega
    | succ fuel =>
      have hs : sliceTo (x ++ (t ++ [c])) (((x ++ (t ++ [c])).length : Int) - 1) =
          some (x ++ t) := by
        have := sliceTo_nat (x ++ (t ++ [c])) (x ++ t).length (by omega)
        have e : (((x ++ t).length : Nat) : Int) - 1 + 1 =
            ((x ++ (t ++ [c])).length : Int) - 1 := by
          rw [hlen]
          push_cast
          ring
        rw [e] at this
        rw [this, ← List.append_assoc, List.take_left]
      rw [stripTrailing]
      simp only [hlen, Nat.succ_pos, gt_iff_lt, if_true]
      rw [hlen] at hget hs
      simp only [hget, hc, if_true, hs]
      exact ih (fun c1 h1 => ht c1 (by simp [h1])) fuel (by omega)

theorem stripTrailing_all_sep (t : List Byte) (ht : ∀ c ∈ t, IsPathSeparator c = true) :
    stripTrailing t.length t = some [] := by
  have := stripTrailing_append [] (by intro c hc; simp at hc) t ht t.length (by simp)
  simpa using this

theorem noSep_last (s : List Byte) (hs : noSep s) :
    ∀ c, s.getLast? = some c → IsPathSeparator c = false :=
  fun c hc => hs c (List.mem_of_mem_getLast? hc)

/-- The computation of `Base` on a path `d ++ s ++ t`: trailing separators
`t`, final segment `s`, and `d` empty or ending with a separator. -/
theorem Base_eq (d s t : List Byte) (hne : s ≠ []) (hs : noSep s)
    (ht : ∀ c ∈ t, IsPathSeparator c = true)
    (hd : d = [] ∨ d.getLast? = some PathSeparator) :
    Base (d ++ s ++ t) = some s := by
  have hp : d ++ s ++ t ≠ [] := by simp [hne]
  have h1 : stripTrailing (d ++ s ++ t).length (d ++ s ++ t) = some (d ++ s) := by
    refine stripTrailing_append (d ++ s) ?_ t ht _ (le_refl _)
    intro c hc
    rw [List.getLast?_append_of_ne_nil _ hne] at hc
    exact noSep_last s hs c hc
  have h2 := scanBack_segment d s hs hd
  unfold Base
  simp only [hp, if_false, h1, h2]
  by_cases hi : (d.length : Int) - 1 ≥ 0
  · have h3 := sliceFrom_nat (d ++ s) d.length (by simp)
    simp only [hi, if_true, h3, List.drop_left, hne, if_false]
  · have hd0 : d = [] := by
      cases d with
      | nil => rfl
      | cons a d =>
        exfalso
        apply hi
        simp only [List.length_cons]
        push_cast
        omega
    simp [hd0, hne]

theorem Base_all_sep (p : List Byte) (hp : p ≠ []) (h : ∀ c ∈ p, IsPathSeparator c = true) :
    Base p = some [PathSeparator] := by
  unfold Base
  simp only [hp, if_false, stripTrailing_all_sep p h]
  simp [scanBack]

/-- Every path is empty, made of separators only, or `d ++ s ++ t` with a final
segment `s`, trailing separators `t`, and `d` empty or ending with a
separator. -/
theorem base_decomp (p : List Byte) :
    p = [] ∨ (p ≠ [] ∧ ∀ c ∈ p, IsPathSeparator c = true) ∨
      ∃ d s t, p = d ++ s ++ t ∧ s ≠ [] ∧ noSep s ∧ (∀ c ∈ t, IsPathSeparator c = true) ∧
        (d = [] ∨ d.getLast? = some PathSeparator) := by
  induction p using List.reverseRecOn with
  | nil => exact Or.inl rfl
  | append_singleton q c ih =>
    right
    by_cases hc : IsPathSeparator c = true
    · rcases ih with h | ⟨_, h⟩ | ⟨d, s, t, e, h1, h2, h3, h4⟩
      · left
        refine ⟨by simp, ?_⟩
        intro c1 hc1
        rw [h] at hc1
        simp at hc1
        rw [hc1]
        exact hc
      · left
        refine ⟨by simp, ?_⟩
        intro c1 hc1
        rcases List.mem_append.1 hc1 with h5 | h5
        · exact h c1 h5
        · simp at h5
          rw [h5]
          exact hc
      · right
        refine ⟨d, s, t ++ [c], by rw [e]; simp, h1, h2, ?_, h4⟩
        intro c1 hc1
        rcases List.mem_append.1 hc1 with h5 | h5
        · exact h3 c1 h5
        · simp at h5
          rw [h5]
          exact hc
    · right
      obtain ⟨m, hm, _, hns, hsep⟩ := Split_spec q
      refine ⟨q.take m, q.drop m ++ [c], [],
        by rw [List.append_nil, ← List.append_assoc, List.take_append_drop], by simp, ?_,
        by simp, ?_⟩
      · refine noSep_append _ _ hns ?_
        intro c1 hc1
        simp at hc1
        rw [hc1]
        simpa using hc
      · by_cases h0 : m = 0
        · left
          rw [h0]
          rfl
        · right
          rcases hsep with h1 | h1
          · exact absurd h1 h0
          · obtain ⟨j, hj⟩ : ∃ j, m = j + 1 := ⟨m - 1, by omega⟩
            subst hj
            rw [Nat.add_sub_cancel] at h1
            rw [List.take_succ, h1]
            simp

theorem take_split_point (p : List Byte) (m : Nat)
    (hsep : m = 0 ∨ p[m - 1]? = some PathSeparator) :
    p.take m = [] ∨ (p.take m).getLast? = some PathSeparator := by
  by_cases h0 : m = 0
  · left
    rw [h0]
    rfl
  · right
    rcases hsep with h1 | h1
    · exact absurd h1 h0
    · obtain ⟨j, hj⟩ : ∃ j, m = j + 1 := ⟨m - 1, by omega⟩
      subst hj
      rw [Nat.add_sub_cancel] at h1
      rw [List.take_succ, h1]
      simp

/-- Every path splits into a directory part, empty or ending with a separator,
and a final segment without separator; `Split` returns these parts. -/
theorem final_segment_exists (p : List Byte) :
    ∃ d s, p = d ++ s ∧ noSep s ∧ (d = [] ∨ d.getLast? = some PathSeparator) ∧
      Split p = some (d, s) := by
  obtain ⟨m, _, e, hns, hsep⟩ := Split_spec p
  exact ⟨p.take m, p.drop m, (List.take_append_drop m p).symm, hns, take_split_point p m hsep, e⟩

/-! ## The lazy buffer refines the plain buffer -/

theorem lazybuf.append_lt (b : lazybuf) (c : Byte) (b1 : lazybuf) (hinv : b.inv)
    (h : b.append c = some b1) : b.w < b.path.length := by
  by_contra hlt
  obtain ⟨h1, h2⟩ := hinv
  unfold lazybuf.append at h
  cases hb : b.buf with
  | none =>
    have hlen : (b.path.take b.w ++ List.replicate (b.path.length - b.w) 0).length =
        b.path.length := by
      simp
      omega
    rw [hb] at h
    simp only [hlt, false_and, if_false, h1, if_true, lazybuf.store, hlen] at h
    cases h
  | some buf =>
    rw [hb] at h
    simp only [lazybuf.store, h2 buf hb, hlt, if_false] at h
    cases h

theorem lazybuf.append_sim (b : lazybuf) (c : Byte) (b1 : lazybuf) (hinv : b.inv)
    (h : b.append c = some b1) :
    b1.inv ∧ b1.path = b.path ∧ b1.w = b.w + 1 ∧ b1.content = b.content ++ [c] := by
  obtain ⟨b2, e, r⟩ := b.append_spec c hinv (b.append_lt c b1 hinv h)
  rw [e] at h
  cases h
  exact r

theorem backtrack_le (out : lazybuf) (dotdot : Nat) :
    ∀ w m, backtrack out dotdot w = some m → m ≤ w := by
  intro w
  induction w with
  | zero =>
    intro m h
    simp [backtrack] at h
    omega
  | succ w ih =>
    intro m h
    rw [backtrack] at h
    by_cases hgt : w + 1 > dotdot
    · simp only [hgt, if_true] at h
      cases hi : out.index (w + 1) with
      | none =>
        rw [hi] at h
        cases h
      | some c =>
        rw [hi] at h
        by_cases hc : IsPathSeparator c = true
        · simp only [hc, if_true] at h
          cases h
          exact le_refl _
        · simp only [hc, if_false] at h
          exact Nat.le_succ_of_le (ih m h)
    · simp only [hgt, if_false] at h
      cases h
      exact le_refl _

theorem backtrack_sim (b : lazybuf) (dotdot : Nat) :
    ∀ w, w < b.w → backtrack b dotdot w = backtrackPlain b.content dotdot w := by
  intro w
  induction w with
  | zero => intro _; rfl
  | succ w ih =>
    intro h
    rw [backtrack, backtrackPlain, lazybuf.index_spec b (w + 1) h, ih (by omega)]

theorem copyElem_sim (path : List Byte) :
    ∀ (fuel r : Nat) (out : lazybuf) (r1 : Nat) (o1 : lazybuf), out.inv →
      copyElem path fuel r out = some (r1, o1) →
      o1.inv ∧ o1.path = out.path ∧
        copyElemPlain path fuel r out.content = some (r1, o1.content) := by
  intro fuel
  induction fuel with
  | zero =>
    intro r out r1 o1 hinv h
    rw [copyElem] at h
    rw [copyElemPlain]
    by_cases hr : r < path.length
    · simp only [hr, if_true] at h ⊢
      cases hget : path[r]? with
      | none =>
        rw [hget] at h
        cases h
      | some c =>
        rw [hget] at h
        by_cases hc : IsPathSeparator c = true
        · simp only [hc, if_true] at h ⊢
          cases h
          exact ⟨hinv, rfl, rfl⟩
        · simp only [hc, if_false] at h
          cases h
    · simp only [hr, if_false] at h ⊢
      cases h
      exact ⟨hinv, rfl, rfl⟩
  | succ fuel ih =>
    intro r out r1 o1 hinv h
    rw [copyElem] at h
    rw [copyElemPlain]
    by_cases hr : r < path.length
    · simp only [hr, if_true] at h ⊢
      cases hget : path[r]? with
      | none =>
        rw [hget] at h
        cases h
      | some c =>
        rw [hget] at h
        by_cases hc : IsPathSeparator c = true
        · simp only [hc, if_true] at h ⊢
          cases h
          exact ⟨hinv, rfl, rfl⟩
        · simp only [hc, if_false] at h ⊢
          cases ha : out.append c with
          | none =>
            rw [ha] at h
            cases h
          | some o =>
            rw [ha] at h
            obtain ⟨a1, a2, _, a4⟩ := out.append_sim c o hinv ha
            obtain ⟨b1, b2, b3⟩ := ih (r + 1) o r1 o1 a1 h
            exact ⟨b1, by rw [b2, a2], by rw [← a4]; exact b3⟩
    · simp only [hr, if_false] at h ⊢
      cases h
      exact ⟨hinv, rfl, rfl⟩

theorem condAppend_sim (b : lazybuf) (cond : Prop) [Decidable cond] (c : Byte) (b1 : lazybuf)
    (hinv : b.inv) (h : (if cond then b.append c else some b) = some b1) :
    b1.inv ∧ b1.path = b.path ∧ b1.w = (if cond then b.w + 1 else b.w) ∧
      b1.content = (if cond then b.content ++ [c] else b.content) := by
  by_cases hc : cond
  · simp only [hc, if_true] at h ⊢
    exact b.append_sim c b1 hinv h
  · simp only [hc, if_false] at h ⊢
    cases h
    exact ⟨hinv, rfl, rfl, rfl⟩

theorem cleanStep_sim (path : List Byte) (rooted : Bool) (s s1 : cleanState)
    (hinv : s.out.inv) (h : cleanStep path rooted s = some s1) :
    s1.out.inv ∧ s1.out.path = s.out.path ∧
      cleanStepPlain path rooted s.abs = some s1.abs := by
  have hwl := lazybuf.content_length _ hinv
  unfold cleanStep at h
  unfold cleanStepPlain
  simp only [cleanState.abs, hwl]
  cases hget : path[s.r]? with
  | none =>
    rw [hget] at h
    cases h
  | some c =>
    rw [hget] at h
    simp only at h ⊢
    by_cases hc : IsPathSeparator c = true
    · simp only [hc, if_true] at h ⊢
      cases h
      exact ⟨hinv, rfl, rfl⟩
    · simp only [hc, if_false] at h ⊢
      cases hd1 : isDotElem path s.r with
      | none =>
        rw [hd1] at h
        cases h
      | some b1 =>
        rw [hd1] at h
        cases b1 with
        | true =>
          simp only at h ⊢
          cases h
          exact ⟨hinv, rfl, rfl⟩
        | false =>
          simp only at h ⊢
          cases hd2 : isDotDotElem path s.r with
          | none =>
            rw [hd2] at h
            cases h
          | some b2 =>
            rw [hd2] at h
            cases b2 with
            | true =>
              simp only at h ⊢
              by_cases hgt : s.out.w > s.dotdot
              · simp only [hgt, if_true] at h ⊢
                rw [← backtrack_sim s.out s.dotdot (s.out.w - 1) (by omega)]
                cases hb : backtrack s.out s.dotdot (s.out.w - 1) with
                | none =>
                  rw [hb] at h
                  cases h
                | some w1 =>
                  rw [hb] at h
                  simp only at h ⊢
                  cases h
                  have hle := backtrack_le s.out s.dotdot _ _ hb
                  obtain ⟨i1, i2⟩ := lazybuf.truncate_spec s.out w1 hinv (by omega)
                  exact ⟨i1, rfl, by simp [i2]⟩
              · simp only [hgt, if_false] at h ⊢
                cases hrt : rooted with
                | true =>
                  rw [hrt] at h
                  simp only [Bool.not_true, Bool.false_eq_true, if_false] at h ⊢
                  cases h
                  exact ⟨hinv, rfl, rfl⟩
                | false =>
                  rw [hrt] at h
                  simp only [Bool.not_false, if_true] at h ⊢
                  cases h1 : (if s.out.w > 0 then s.out.append PathSeparator else some s.out) with
                  | none =>
                    rw [h1] at h
                    cases h
                  | some o1 =>
                    rw [h1] at h
                    simp only at h
                    obtain ⟨a1, a2, a3, a4⟩ := condAppend_sim s.out _ _ o1 hinv h1
                    cases h2 : o1.append dot with
                    | none =>
                      rw [h2] at h
                      cases h
                    | some o2 =>
                      rw [h2] at h
                      simp only at h
                      obtain ⟨b1, b2, b3, b4⟩ := o1.append_sim dot o2 a1 h2
                      cases h3 : o2.append dot with
                      | none =>
                        rw [h3] at h
                        cases h
                      | some o3 =>
                        rw [h3] at h
                        simp only at h
                        obtain ⟨c1, c2, c3, c4⟩ := o2.append_sim dot o3 b1 h3
                        cases h
                        refine ⟨c1, by rw [c2, b2, a2], ?_⟩
                        have hl3 := lazybuf.content_length _ c1
                        simp only
                        rw [← hl3, c4, b4, a4]
                        by_cases hw0 : s.out.w > 0 <;> simp [hw0]
            | false =>
              simp only at h ⊢
              cases h1 : (if (rooted && s.out.w != 1 || !rooted && s.out.w != 0) = true
                  then s.out.append PathSeparator else some s.out) with
              | none =>
                rw [h1] at h
                cases h
              | some o1 =>
                rw [h1] at h
                simp only at h
                obtain ⟨a1, a2, a3, a4⟩ := condAppend_sim s.out _ _ o1 hinv h1
                cases h2 : copyElem path (path.length - s.r) s.r o1 with
                | none =>
                  rw [h2] at h
                  cases h
                | some pr =>
                  rw [h2] at h
                  obtain ⟨r1, o2⟩ := pr
                  simp only at h
                  cases h
                  obtain ⟨b1, b2, b3⟩ := copyElem_sim path _ _ o1 r1 o2 a1 h2
                  refine ⟨b1, by rw [b2, a2], ?_⟩
                  rw [a4] at b3
                  simp only [Bool.false_eq_true, if_false, b3]

theorem cleanLoop_sim (path : List Byte) (rooted : Bool) :
    ∀ (fuel : Nat) (s s1 : cleanState), s.out.inv →
      cleanLoop path rooted fuel s = some s1 →
      s1.out.inv ∧ s1.out.path = s.out.path ∧
        cleanLoopPlain path rooted fuel s.abs = some s1.abs := by
  intro fuel
  induction fuel with
  | zero =>
    intro s s1 hinv h
    have hr1 : s.abs.r = s.r := rfl
    rw [cleanLoop] at h
    rw [cleanLoopPlain]
    by_cases hr : s.r < path.length
    · simp only [hr, if_true] at h
      cases h
    · simp only [hr, if_false] at h
      cases h
      exact ⟨hinv, rfl, by simp only [hr1, hr, if_false]⟩
  | succ fuel ih =>
    intro s s1 hinv h
    have hr1 : s.abs.r = s.r := rfl
    rw [cleanLoop] at h
    rw [cleanLoopPlain]
    by_cases hr : s.r < path.length
    · simp only [hr, if_true] at h
      cases hstep : cleanStep path rooted s with
      | none =>
        rw [hstep] at h
        cases h
      | some s2 =>
        rw [hstep] at h
        obtain ⟨a1, a2, a3⟩ := cleanStep_sim path rooted s s2 hinv hstep
        obtain ⟨b1, b2, b3⟩ := ih s2 s1 a1 h
        exact ⟨b1, by rw [b2, a2], by simp only [hr1, hr, if_true, a3]; exact b3⟩
    · simp only [hr, if_false] at h
      cases h
      exact ⟨hinv, rfl, by simp only [hr1, hr, if_false]⟩

theorem lazybuf.append_inplace (b : lazybuf) (c : Byte) (hb : b.buf = none)
    (hc : b.path[b.w]? = some c) : b.append c = some { b with w := b.w + 1 } := by
  obtain ⟨hlt, _⟩ := List.getElem?_eq_some.1 hc
  unfold lazybuf.append
  rw [hb]
  simp [hlt, hc]

/-- The state of `Clean` at its first loop head: nothing is allocated, and the
write cursor equals the read cursor. -/
theorem cleanInit_eq (c0 : Byte) (rest : List Byte) :
    ∃ s0, cleanInit (c0 :: rest) (IsPathSeparator c0) = some s0 ∧ s0.out.inv ∧
      s0.out.path = c0 :: rest ∧ s0.out.buf = none ∧ s0.r = s0.out.w ∧
      s0.abs = plainInit (IsPathSeparator c0) := by
  have hinv0 : ({ path := c0 :: rest, buf := none, w := 0 } : lazybuf).inv :=
    ⟨Nat.zero_le _, by intro buf hb; cases hb⟩
  cases hrt : IsPathSeparator c0 with
  | true =>
    have hc0 : c0 = PathSeparator := (isPathSeparator_iff c0).1 hrt
    have e := lazybuf.append_inplace { path := c0 :: rest, buf := none, w := 0 } PathSeparator
      rfl (by simp [hc0])
    refine ⟨{ r := 1, dotdot := 1, out := { path := c0 :: rest, buf := none, w := 1 } },
      ?_, ⟨by simp, by intro buf hb; cases hb⟩, rfl, rfl, rfl, ?_⟩
    · simp [cleanInit, e]
    · simp [cleanState.abs, plainInit, lazybuf.content, hc0]
  | false =>
    refine ⟨{ r := 0, dotdot := 0, out := { path := c0 :: rest, buf := none, w := 0 } },
      by simp [cleanInit], hinv0, rfl, rfl, rfl, ?_⟩
    simp [cleanState.abs, plainInit, lazybuf.content]

/-- The end of `Clean`, after its main loop has returned the state `s1`. -/
theorem Clean_unfold (c0 : Byte) (rest : List Byte) (s0 s1 : cleanState)
    (e0 : cleanInit (c0 :: rest) (IsPathSeparator c0) = some s0)
    (e1 : cleanLoop (c0 :: rest) (IsPathSeparator c0) (c0 :: rest).length s0 = some s1)
    (hinv : s1.out.inv) (hp : s1.out.path = c0 :: rest) :
    ∃ o, (if s1.out.w = 0 then s1.out.append dot else some s1.out) = some o ∧ o.inv ∧
      o.path = s1.out.path ∧
      o.content = (if s1.out.w = 0 then [dot] else s1.out.content) ∧
      Clean (c0 :: rest) = some o.content := by
  have hwl := lazybuf.content_length _ hinv
  unfold Clean
  simp only [e0, e1]
  by_cases hw : s1.out.w = 0
  · obtain ⟨o, a1, a2, a3, a4, a5⟩ :=
      s1.out.append_spec dot hinv (by rw [hp, hw]; simp)
    have hnil : s1.out.content = [] := by
      rw [hw] at hwl
      exact List.length_eq_zero.1 hwl
    refine ⟨o, by simp only [hw, if_true, a1], a2, a3, ?_, ?_⟩
    · rw [a5, hnil]
      simp [hw]
    · simp only [hw, if_true, a1]
      exact lazybuf.string_eq _ a2
  · refine ⟨s1.out, by simp only [hw, if_false], hinv, rfl, by simp only [hw, if_false], ?_⟩
    simp only [hw, if_false]
    exact lazybuf.string_eq _ hinv

/-- The function `Clean` computes what the same algorithm computes over a plain
output buffer. -/
theorem Clean_eq_CleanPlain (p : List Byte) : Clean p = CleanPlain p := by
  cases p with
  | nil => rfl
  | cons c0 rest =>
    obtain ⟨s0, e0, hinv0, hp0, _, _, habs⟩ := cleanInit_eq c0 rest
    obtain ⟨s0g, e0g, g0, _⟩ := cleanInit_good c0 rest
    rw [e0] at e0g
    cases e0g
    obtain ⟨s1, k1, N1, e1, g1, _, _⟩ :=
      cleanLoop_good (c0 :: rest) (IsPathSeparator c0) (c0 :: rest).length s0 0 [] g0
        (by omega)
    obtain ⟨i1, i2, hsim⟩ := cleanLoop_sim _ _ _ s0 s1 hinv0 e1
    obtain ⟨o, _, _, _, ho, hres⟩ := Clean_unfold c0 rest s0 s1 e0 e1 i1 (by rw [i2, hp0])
    have hwl := lazybuf.content_length _ i1
    rw [hres, ho]
    unfold CleanPlain
    rw [habs] at hsim
    simp only [hsim]
    have hab : s1.abs.out = s1.out.content := rfl
    rw [hab, hwl]
    by_cases hw : s1.out.w = 0
    · have hnil : s1.out.content = [] := by
        rw [hw] at hwl
        exact List.length_eq_zero.1 hwl
      simp [hw, hnil]
    · simp [hw]

/-! ## Clean paths are cleaned in place -/

theorem Good.slack_w {path : List Byte} {rooted : Bool} {s : cleanState} {k : Nat}
    {N : List (List Byte)} (g : Good path rooted s k N)
    (hw : s.out.w ≠ (rootOf rooted).length) :
    s.out.w + 1 ≤ s.r ∨ s.r = path.length ∨
      ∃ c, path[s.r]? = some c ∧ IsPathSeparator c = true := by
  apply g.slack
  by_contra hcon
  push_neg at hcon
  apply hw
  rw [g.w_eq, hcon.1, hcon.2]
  simp [ddPrefix, joinSegs]

theorem Good.slack_B {path : List Byte} {rooted : Bool} {s : cleanState} {k : Nat}
    {N : List (List Byte)} (g : Good path rooted s k N) (hr : s.r < path.length) (c : Byte)
    (e : path[s.r]? = some c) (hc : IsPathSeparator c = false)
    (hw : s.out.w ≠ (rootOf rooted).length) : s.out.w + 1 ≤ s.r := by
  rcases g.slack_w hw with h | h | ⟨c1, h1, h2⟩
  · exact h
  · omega
  · rw [e] at h1
    cases h1
    rw [hc] at h2
    cases h2

theorem cond_iff (rooted : Bool) (w : Nat) :
    (rooted && w != 1 || !rooted && w != 0) = true ↔ w ≠ (rootOf rooted).length := by
  cases rooted <;> simp [rootOf]

theorem copyElem_inplace (path : List Byte) :
    ∀ (fuel r : Nat) (out : lazybuf) (r1 : Nat) (o1 : lazybuf), out.buf = none →
      out.w = r → out.path = path → copyElem path fuel r out = some (r1, o1) →
      o1.buf = none ∧ o1.w = r1 := by
  intro fuel
  induction fuel with
  | zero =>
    intro r out r1 o1 hb hw hp h
    rw [copyElem] at h
    by_cases hr : r < path.length
    · simp only [hr, if_true] at h
      cases hget : path[r]? with
      | none =>
        rw [hget] at h
        cases h
      | some c =>
        rw [hget] at h
        by_cases hc : IsPathSeparator c = true
        · simp only [hc, if_true] at h
          cases h
          exact ⟨hb, hw⟩
        · simp only [hc, if_false] at h
          cases h
    · simp only [hr, if_false] at h
      cases h
      exact ⟨hb, hw⟩
  | succ fuel ih =>
    intro r out r1 o1 hb hw hp h
    rw [copyElem] at h
    by_cases hr : r < path.length
    · simp only [hr, if_true] at h
      cases hget : path[r]? with
      | none =>
        rw [hget] at h
        cases h
      | some c =>
        rw [hget] at h
        by_cases hc : IsPathSeparator c = true
        · simp only [hc, if_true] at h
          cases h
          exact ⟨hb, hw⟩
        · simp only [hc, if_false] at h
          rw [out.append_inplace c hb (by rw [hp, hw]; exact hget)] at h
          simp only [Bool.false_eq_true, if_false] at h
          exact ih (r + 1) { out with w := out.w + 1 } r1 o1 hb (by simp [hw]) hp h
    · simp only [hr, if_false] at h
      cases h
      exact ⟨hb, hw⟩

theorem tight_sep (path : List Byte) (rooted : Bool) (s s1 : cleanState)
    (ht : Tight path rooted s) (c : Byte) (e : path[s.r]? = some c)
    (hc : IsPathSeparator c = true) (hstep : cleanStep path rooted s = some s1) :
    Tight path rooted s1 ∧ (Behind path rooted s → Behind path rooted s1) := by
  have hs1 : s1 = { s with r := s.r + 1 } := by
    simp [cleanStep, e, hc] at hstep
    exact hstep.symm
  have hcs : c = PathSeparator := (isPathSeparator_iff c).1 hc
  rw [hs1]
  have hE : Behind path rooted s → Behind path rooted { s with r := s.r + 1 } := by
    intro hE
    obtain ⟨h1, _⟩ := hE
    exact ⟨show s.out.w + 1 ≤ s.r + 1 by omega,
      fun _ => Or.inl (show s.out.w + 2 ≤ s.r + 1 by omega)⟩
  refine ⟨?_, hE⟩
  rcases ht with ⟨hb, h1 | ⟨h1, _, _⟩⟩ | h1
  · by_cases hw : s.out.w = (rootOf rooted).length
    · exact Or.inr ⟨show s.out.w + 1 ≤ s.r + 1 by omega, fun h => absurd hw h⟩
    · refine Or.inl ⟨hb, Or.inr ⟨show s.r + 1 = s.out.w + 1 by omega, ?_, hw⟩⟩
      show path[s.out.w]? = some PathSeparator
      rw [← h1, e, hcs]
  · exact Or.inr ⟨show s.out.w + 1 ≤ s.r + 1 by omega,
      fun _ => Or.inl (show s.out.w + 2 ≤ s.r + 1 by omega)⟩
  · exact Or.inr (hE h1)

theorem tight_dot (path : List Byte) (rooted : Bool) (s s1 : cleanState) (k : Nat)
    (N : List (List Byte)) (g : Good path rooted s k N) (tail : List Byte)
    (h : path.drop s.r = [dot] ++ tail) (ht : sepHead tail)
    (hstep : cleanStep path rooted s = some s1) :
    Tight path rooted s1 ∧ (Behind path rooted s → Behind path rooted s1) := by
  have hs : noSep [dot] := by
    intro c hc
    simp at hc
    rw [hc]
    exact isPathSeparator_dot
  obtain ⟨hr, e, hdrop⟩ := drop_cons_inv (show path.drop s.r = dot :: tail from h)
  have hd := isDotElem_spec path s.r [dot] tail h (by simp) hs ht
  have hs1 : s1 = { s with r := s.r + 1 } := by
    simp [cleanStep, e, isPathSeparator_dot, hd] at hstep
    exact hstep.symm
  rw [hs1]
  have := g.w_le
  have hE : Behind path rooted { s with r := s.r + 1 } :=
    ⟨show s.out.w + 1 ≤ s.r + 1 by omega,
      fun _ => Or.inr (after_segment hdrop ht (show s.r + 1 ≤ path.length by omega))⟩
  exact ⟨Or.inr hE, fun _ => hE⟩

theorem tight_dotdot (path : List Byte) (rooted : Bool) (s s1 : cleanState) (k : Nat)
    (N : List (List Byte)) (g : Good path rooted s k N) (ht : Tight path rooted s)
    (tail : List Byte) (h : path.drop s.r = [dot, dot] ++ tail) (hst : sepHead tail)
    (hstep : cleanStep path rooted s = some s1) :
    Tight path rooted s1 ∧ (Behind path rooted s → Behind path rooted s1) := by
  obtain ⟨hr, e, _⟩ := drop_cons_inv (show path.drop s.r = dot :: (dot :: tail) from h)
  have e1 : path[s.r + 1]? = some dot := by
    rw [getElem?_of_drop h 1]
    simp
  have hlen : path.length = s.r + (tail.length + 2) := by
    have := length_of_drop h g.r_le
    simpa using this
  have hdrop : path.drop (s.r + 2) = tail := drop_append_length h
  have hd1 : isDotElem path s.r = some false := by
    rw [isDotElem_spec path s.r [dot, dot] tail h (by simp) noSep_dotdot hst]
    simp
  have hd2 : isDotDotElem path s.r = some true := by
    rw [isDotDotElem_spec path s.r [dot, dot] tail h (by simp) noSep_dotdot hst (by simp)]
    simp
  have hA := after_segment hdrop hst (show s.r + 2 ≤ path.length by omega)
  have hwr := g.w_le
  unfold cleanStep at hstep
  simp only [e, isPathSeparator_dot, hd1, hd2, Bool.false_eq_true, if_false] at hstep
  by_cases hgt : s.out.w > s.dotdot
  · simp only [hgt, if_true] at hstep
    cases hb : backtrack s.out s.dotdot (s.out.w - 1) with
    | none =>
      rw [hb] at hstep
      cases hstep
    | some w1 =>
      rw [hb] at hstep
      cases hstep
      have hle := backtrack_le _ _ _ _ hb
      have hE : Behind path rooted
          { r := s.r + 2, dotdot := s.dotdot, out := { s.out with w := w1 } } :=
        ⟨show w1 + 1 ≤ s.r + 2 by omega, fun _ => Or.inr hA⟩
      exact ⟨Or.inr hE, fun _ => hE⟩
  · simp only [hgt, if_false] at hstep
    cases rooted with
    | true =>
      simp only [Bool.not_true, Bool.false_eq_true, if_false] at hstep
      cases hstep
      have hE : Behind path true { s with r := s.r + 2 } :=
        ⟨show s.out.w + 1 ≤ s.r + 2 by omega, fun _ => Or.inr hA⟩
      exact ⟨Or.inr hE, fun _ => hE⟩
    | false =>
      simp only [Bool.not_false, if_true] at hstep
      have hB : s.out.w ≠ 0 → s.out.w + 1 ≤ s.r := fun hw =>
        g.slack_B hr dot e isPathSeparator_dot (by simpa [rootOf] using hw)
      have hE : Behind path false s → Behind path false s1 := by
        intro hE
        obtain ⟨h1, h2⟩ := hE
        cases c1 : (if s.out.w > 0 then s.out.append PathSeparator else some s.out) with
        | none =>
          rw [c1] at hstep
          cases hstep
        | some o1 =>
          rw [c1] at hstep
          simp only at hstep
          obtain ⟨i1, _, i3, _⟩ := condAppend_sim s.out _ _ o1 g.inv c1
          cases c2 : o1.append dot with
          | none =>
            rw [c2] at hstep
            cases hstep
          | some o2 =>
            rw [c2] at hstep
            simp only at hstep
            obtain ⟨j1, _, j3, _⟩ := o1.append_sim dot o2 i1 c2
            cases c3 : o2.append dot with
            | none =>
              rw [c3] at hstep
              cases hstep
            | some o3 =>
              rw [c3] at hstep
              simp only at hstep
              obtain ⟨_, _, l3, _⟩ := o2.append_sim dot o3 j1 c3
              cases hstep
              refine ⟨?_, fun _ => Or.inr hA⟩
              show o3.w + 1 ≤ s.r + 2
              by_cases hw0 : s.out.w > 0
              · simp only [hw0, if_true] at i3
                rcases h2 (by simp [rootOf]; omega) with h4 | h4 | ⟨c, h4, h5⟩
                · omega
                · omega
                · rw [e] at h4
                  cases h4
                  rw [isPathSeparator_dot] at h5
                  cases h5
              · simp only [hw0, if_false] at i3
                omega
      refine ⟨?_, hE⟩
      rcases ht with ⟨hb, h1 | ⟨h1, h2, h3⟩⟩ | h1
      · -- nothing written yet: the two dots are written in place
        have hw0 : s.out.w = 0 := by
          by_contra hne
          have := hB hne
          omega
        have a1 : s.out.append dot = some { s.out with w := s.out.w + 1 } :=
          s.out.append_inplace dot hb (by rw [g.hpath, ← h1]; exact e)
        have a2 : ({ s.out with w := s.out.w + 1 } : lazybuf).append dot =
            some { s.out with w := s.out.w + 1 + 1 } :=
          lazybuf.append_inplace _ dot hb (by
            show s.out.path[s.out.w + 1]? = some dot
            rw [g.hpath, ← h1]
            exact e1)
        have hnot : ¬ s.out.w > 0 := by omega
        simp only [hnot, if_false, a1, a2] at hstep
        cases hstep
        exact Or.inl ⟨hb, Or.inl (show s.r + 2 = s.out.w + 1 + 1 by omega)⟩
      · -- the separator just read, then the two dots, are written in place
        have hpos : s.out.w > 0 := by
          have : s.out.w ≠ 0 := by simpa [rootOf] using h3
          omega
        have a0 : s.out.append PathSeparator = some { s.out with w := s.out.w + 1 } :=
          s.out.append_inplace PathSeparator hb (by rw [g.hpath]; exact h2)
        have a1 : ({ s.out with w := s.out.w + 1 } : lazybuf).append dot =
            some { s.out with w := s.out.w + 1 + 1 } :=
          lazybuf.append_inplace _ dot hb (by
            show s.out.path[s.out.w + 1]? = some dot
            rw [g.hpath, ← h1]
            exact e)
        have a2 : ({ s.out with w := s.out.w + 1 + 1 } : lazybuf).append dot =
            some { s.out with w := s.out.w + 1 + 1 + 1 } :=
          lazybuf.append_inplace _ dot hb (by
            show s.out.path[s.out.w + 1 + 1]? = some dot
            rw [g.hpath, ← h1]
            exact e1)
        simp only [hpos, if_true, a0, a1, a2] at hstep
        cases hstep
        exact Or.inl ⟨hb, Or.inl (show s.r + 2 = s.out.w + 1 + 1 + 1 by omega)⟩
      · exact Or.inr (hE h1)

theorem tight_elem (path : List Byte) (rooted : Bool) (s s1 : cleanState) (k : Nat)
    (N : List (List Byte)) (g : Good path rooted s k N) (ht : Tight path rooted s)
    (seg tail : List Byte) (h : path.drop s.r = seg ++ tail) (hs : noSep seg)
    (hst : sepHead tail) (hne : seg ≠ []) (hn1 : seg ≠ [dot]) (hn2 : seg ≠ [dot, dot])
    (hstep : cleanStep path rooted s = some s1) :
    Tight path rooted s1 ∧ (Behind path rooted s → Behind path rooted s1) := by
  obtain ⟨c, seg1, hseg⟩ : ∃ c seg1, seg = c :: seg1 := by
    cases seg with
    | nil => exact absurd rfl hne
    | cons c seg1 => exact ⟨c, seg1, rfl⟩
  have hc : IsPathSeparator c = false := hs c (by simp [hseg])
  obtain ⟨hr, e, _⟩ := drop_cons_inv (show path.drop s.r = c :: (seg1 ++ tail) by
    rw [h, hseg]; rfl)
  have hlen : path.length = s.r + (seg.length + tail.length) := by
    have := length_of_drop h g.r_le
    simpa using this
  have hdrop : path.drop (s.r + seg.length) = tail := drop_append_length h
  have hd1 : isDotElem path s.r = some false := by
    rw [isDotElem_spec path s.r seg tail h hne hs hst]
    simp [hn1]
  have hd2 : isDotDotElem path s.r = some false := by
    rw [isDotDotElem_spec path s.r seg tail h hne hs hst hn1]
    simp [hn2]
  have hA := after_segment hdrop hst (show s.r + seg.length ≤ path.length by omega)
  have hwr := g.w_le
  have hcond := cond_iff rooted s.out.w
  have hB : s.out.w ≠ (rootOf rooted).length → s.out.w + 1 ≤ s.r := g.slack_B hr c e hc
  unfold cleanStep at hstep
  simp only [e, hc, hd1, hd2, Bool.false_eq_true, if_false] at hstep
  cases c1 : (if (rooted && s.out.w != 1 || !rooted && s.out.w != 0) = true
      then s.out.append PathSeparator else some s.out) with
  | none =>
    rw [c1] at hstep
    cases hstep
  | some o1 =>
    rw [c1] at hstep
    simp only at hstep
    obtain ⟨i1, i2, i3, _⟩ := condAppend_sim s.out _ _ o1 g.inv c1
    have ho1w : o1.w ≤ s.r := by
      by_cases hcd : (rooted && s.out.w != 1 || !rooted && s.out.w != 0) = true
      · have := hB (hcond.1 hcd)
        simp only [hcd, if_true] at i3
        omega
      · simp only [hcd, Bool.false_eq_true, if_false] at i3
        omega
    cases c2 : copyElem path (path.length - s.r) s.r o1 with
    | none =>
      rw [c2] at hstep
      cases hstep
    | some pr =>
      rw [c2] at hstep
      obtain ⟨r1, o2⟩ := pr
      simp only at hstep
      cases hstep
      obtain ⟨o2a, b1, _, _, b4, _⟩ :=
        copyElem_spec path tail hst seg (path.length - s.r) s.r o1 hs h (by omega) i1
          (by rw [i2, g.hpath]) ho1w
      rw [c2] at b1
      cases b1
      have hE : Behind path rooted s →
          Behind path rooted { r := s.r + seg.length, dotdot := s.dotdot, out := o2 } := by
        intro hE
        obtain ⟨h1, h2⟩ := hE
        refine ⟨?_, fun _ => Or.inr hA⟩
        show o2.w + 1 ≤ s.r + seg.length
        by_cases hcd : (rooted && s.out.w != 1 || !rooted && s.out.w != 0) = true
        · simp only [hcd, if_true] at i3
          rcases h2 (hcond.1 hcd) with h4 | h4 | ⟨c3, h4, h5⟩
          · omega
          · omega
          · rw [e] at h4
            cases h4
            rw [hc] at h5
            cases h5
        · simp only [hcd, Bool.false_eq_true, if_false] at i3
          omega
      refine ⟨?_, hE⟩
      rcases ht with ⟨hb, h1 | ⟨h1, h2, h3⟩⟩ | h1
      · -- first segment: copied in place
        have hcd : ¬ (rooted && s.out.w != 1 || !rooted && s.out.w != 0) = true := by
          intro hcd
          have := hB (hcond.1 hcd)
          omega
        simp only [hcd, if_false] at c1
        cases c1
        obtain ⟨k1, k2⟩ := copyElem_inplace path _ _ s.out _ o2 hb h1.symm g.hpath c2
        exact Or.inl ⟨k1, Or.inl k2.symm⟩
      · -- the separator just read and the segment are written in place
        have hcd : (rooted && s.out.w != 1 || !rooted && s.out.w != 0) = true := hcond.2 h3
        have a0 : s.out.append PathSeparator = some { s.out with w := s.out.w + 1 } :=
          s.out.append_inplace PathSeparator hb (by rw [g.hpath]; exact h2)
        simp only [hcd, if_true, a0] at c1
        cases c1
        obtain ⟨k1, k2⟩ := copyElem_inplace path _ _
          ({ s.out with w := s.out.w + 1 } : lazybuf) _ o2 hb h1.symm g.hpath c2
        exact Or.inl ⟨k1, Or.inl k2.symm⟩
      · exact Or.inr (hE h1)

theorem tight_step (path : List Byte) (rooted : Bool) (s s1 : cleanState) (k : Nat)
    (N : List (List Byte)) (g : Good path rooted s k N) (ht : Tight path rooted s)
    (hr : s.r < path.length) (hstep : cleanStep path rooted s = some s1) :
    Tight path rooted s1 ∧ (Behind path rooted s → Behind path rooted s1) := by
  cases hdrop : path.drop s.r with
  | nil =>
    have := length_of_drop hdrop g.r_le
    simp at this
    omega
  | cons c rest =>
    obtain ⟨_, e, _⟩ := drop_cons_inv hdrop
    by_cases hc : IsPathSeparator c = true
    · exact tight_sep path rooted s s1 ht c e hc hstep
    · obtain ⟨seg, tail, hl, hs, hst, hne⟩ := seg_decomp (path.drop s.r)
      have hne1 : seg ≠ [] := hne c (by rw [hdrop]; rfl) (by simpa using hc)
      by_cases h1 : seg = [dot]
      · rw [h1] at hl
        exact tight_dot path rooted s s1 k N g tail hl hst hstep
      · by_cases h2 : seg = [dot, dot]
        · rw [h2] at hl
          exact tight_dotdot path rooted s s1 k N g ht tail hl hst hstep
        · exact tight_elem path rooted s s1 k N g ht seg tail hl hs hst hne1 h1 h2 hstep

theorem cleanLoop_tight (path : List Byte) (rooted : Bool) :
    ∀ (fuel : Nat) (s : cleanState) (k : Nat) (N : List (List Byte)) (s1 : cleanState),
      Good path rooted s k N → Tight path rooted s →
      cleanLoop path rooted fuel s = some s1 →
      Tight path rooted s1 ∧ (Behind path rooted s → Behind path rooted s1) := by
  intro fuel
  induction fuel with
  | zero =>
    intro s k N s1 _ ht h
    rw [cleanLoop] at h
    by_cases hr : s.r < path.length
    · simp only [hr, if_true] at h
      cases h
    · simp only [hr, if_false] at h
      cases h
      exact ⟨ht, fun hE => hE⟩
  | succ fuel ih =>
    intro s k N s1 g ht h
    rw [cleanLoop] at h
    by_cases hr : s.r < path.length
    · simp only [hr, if_true] at h
      obtain ⟨s2, k2, N2, e2, g2, _, _⟩ := cleanStep_good path rooted s k N g hr
      rw [e2] at h
      obtain ⟨t2, b2⟩ := tight_step path rooted s s2 k N g ht hr e2
      obtain ⟨t3, b3⟩ := ih s2 k2 N2 s1 g2 t2 h
      exact ⟨t3, fun hE => b3 (b2 hE)⟩
    · simp only [hr, if_false] at h
      cases h
      exact ⟨ht, fun hE => hE⟩

/-- Every loop head of `Clean` satisfies the in-place invariant, and the rest
of the main loop runs from it to the final state. -/
theorem loopHead_tight (c0 : Byte) (rest : List Byte) (s0 sf : cleanState)
    (e0 : cleanInit (c0 :: rest) (IsPathSeparator c0) = some s0)
    (ef : cleanLoop (c0 :: rest) (IsPathSeparator c0) (c0 :: rest).length s0 = some sf)
    (s : cleanState) (h : LoopHead (c0 :: rest) (IsPathSeparator c0) s) :
    (∃ k N, Good (c0 :: rest) (IsPathSeparator c0) s k N) ∧
      Tight (c0 :: rest) (IsPathSeparator c0) s ∧
      ∃ fuel, cleanLoop (c0 :: rest) (IsPathSeparator c0) fuel s = some sf := by
  induction h with
  | init s hs =>
    obtain ⟨s0a, e0a, _, _, hb0, hr0, _⟩ := cleanInit_eq c0 rest
    obtain ⟨s0g, e0g, g0, _⟩ := cleanInit_good c0 rest
    rw [e0a] at e0g hs e0
    cases e0g
    cases hs
    cases e0
    exact ⟨⟨0, [], g0⟩, Or.inl ⟨hb0, Or.inl hr0⟩, _, ef⟩
  | step s s1 _ hr hstep ih =>
    obtain ⟨⟨k, N, g⟩, ht, fuel, hf⟩ := ih
    obtain ⟨s2, k2, N2, e2, g2, _, _⟩ := cleanStep_good _ _ s k N g hr
    rw [hstep] at e2
    cases e2
    refine ⟨⟨k2, N2, g2⟩, (tight_step _ _ s s1 k N g ht hr hstep).1, ?_⟩
    cases fuel with
    | zero =>
      rw [cleanLoop] at hf
      simp only [hr, if_true] at hf
      cases hf
    | succ fuel =>
      rw [cleanLoop] at hf
      simp only [hr, if_true, hstep] at hf
      exact ⟨fuel, hf⟩

/-- The run of `Clean` on a non-empty path, with the in-place invariant at the
end of the main loop. -/
theorem Clean_run_tight (c0 : Byte) (rest : List Byte) :
    ∃ s0 s1 k1 N1, cleanInit (c0 :: rest) (IsPathSeparator c0) = some s0 ∧
      cleanLoop (c0 :: rest) (IsPathSeparator c0) (c0 :: rest).length s0 = some s1 ∧
      Good (c0 :: rest) (IsPathSeparator c0) s1 k1 N1 ∧ s1.r = (c0 :: rest).length ∧
      Tight (c0 :: rest) (IsPathSeparator c0) s1 := by
  obtain ⟨s0, e0, _, _, hb0, hr0, _⟩ := cleanInit_eq c0 rest
  obtain ⟨s0g, e0g, g0, _⟩ := cleanInit_good c0 rest
  rw [e0] at e0g
  cases e0g
  obtain ⟨s1, k1, N1, e1, g1, hr1, _⟩ :=
    cleanLoop_good (c0 :: rest) (IsPathSeparator c0) (c0 :: rest).length s0 0 [] g0
      (by omega)
  exact ⟨s0, s1, k1, N1, e0, e1, g1, hr1,
    (cleanLoop_tight _ _ _ s0 0 [] s1 g0 (Or.inl ⟨hb0, Or.inl hr0⟩) e1).1⟩

/-- The loop heads of `Clean(".")`: the initial state and the state after the
`.` element; neither has an allocated buffer. -/
theorem loopHead_dot (s : cleanState) (h : LoopHead [dot] (IsPathSeparator dot) s) :
    s.out.buf = none := by
  have key : s = { r := 0, dotdot := 0, out := { path := [dot], buf := none, w := 0 } } ∨
      s = { r := 1, dotdot := 0, out := { path := [dot], buf := none, w := 0 } } := by
    induction h with
    | init s hs =>
      have e : cleanInit [dot] (IsPathSeparator dot) =
          some { r := 0, dotdot := 0, out := { path := [dot], buf := none, w := 0 } } := by
        decide
      rw [e] at hs
      cases hs
      exact Or.inl rfl
    | step s s1 _ hr hstep ih =>
      rcases ih with h1 | h1
      · have e : cleanStep [dot] (IsPathSeparator dot)
            { r := 0, dotdot := 0, out := { path := [dot], buf := none, w := 0 } } =
            some { r := 1, dotdot := 0, out := { path := [dot], buf := none, w := 0 } } := by
          decide
        rw [h1, e] at hstep
        cases hstep
        exact Or.inr rfl
      · rw [h1] at hr
        simp at hr
  rcases key with h1 | h1 <;> rw [h1]

/-! ## The claims -/

/-- C1: with the separator `'/'`, `Clean` returns on every path, and its result
is the reference segment normalisation: the stack of the kept segments, joined
by single separators behind the root prefix, or `"."` when that is empty. -/
theorem Clean_refines_reference :
    PathSeparator = 47 ∧ (∀ c, IsPathSeparator c = true ↔ c = PathSeparator) ∧
      ∀ p : List Byte, Clean p = some (cleanRef p) :=
  ⟨rfl, isPathSeparator_iff, Clean_eq_cleanRef⟩

/-- C2: `Clean` is idempotent: cleaning the result of `Clean(p)` returns it
unchanged. -/
theorem Clean_idempotent (p : List Byte) :
    ∃ q, Clean p = some q ∧ Clean q = some q :=
  ⟨cleanRef p, Clean_eq_cleanRef p, by rw [Clean_eq_cleanRef, cleanRef_idem]⟩

/-- C3: no index is out of range.  `Clean`, `Split`, `Ext`, `Base` and `Dir`
return on every path (an index or slice expression out of range would make the
embedding return `none`), and at every loop head of `Clean` the cursors satisfy
`dotdot <= w <= r <= len(p)`. -/
theorem Clean_indices_in_bounds (p : List Byte) :
    (∃ q, Clean p = some q) ∧ (∃ d f, Split p = some (d, f)) ∧ (∃ e, Ext p = some e) ∧
      (∃ b, Base p = some b) ∧ (∃ d, Dir p = some d) ∧
      ∀ c0 rest s, p = c0 :: rest → LoopHead p (IsPathSeparator c0) s →
        s.dotdot ≤ s.out.w ∧ s.out.w ≤ s.r ∧ s.r ≤ p.length := by
  refine ⟨⟨_, Clean_eq_cleanRef p⟩, ?_, extLoop_some p p.length (le_refl _), Base_some p,
    Dir_some p, ?_⟩
  · obtain ⟨m, _, e, _, _⟩ := Split_spec p
    exact ⟨_, _, e⟩
  · intro c0 rest s hp h
    subst hp
    obtain ⟨k, N, g⟩ := loopHead_good c0 rest s h
    exact ⟨g.dotdot_le, g.w_le, g.r_le⟩

/-- A loop head of `Clean("/a")`, the state after the root separator is
written, satisfies the cursor bounds of C3. -/
theorem Clean_indices_in_bounds_witness :
    LoopHead [47, 97] (IsPathSeparator 47)
        { r := 1, dotdot := 1, out := { path := [47, 97], buf := none, w := 1 } } ∧
      (1 ≤ 1 ∧ 1 ≤ 1 ∧ 1 ≤ 2) :=
  ⟨LoopHead.init _ (by decide),
    (Clean_indices_in_bounds [47, 97]).2.2.2.2.2 47 [97]
      { r := 1, dotdot := 1, out := { path := [47, 97], buf := none, w := 1 } } rfl
      (LoopHead.init _ (by decide))⟩

/-- C4: the length of `Clean(p)` is at most `max(len(p), 1)`. -/
theorem Clean_length_bound (p : List Byte) :
    ∃ q, Clean p = some q ∧ q.length ≤ max p.length 1 :=
  Clean_length p

/-- C5: `Clean` preserves rootedness, `IsAbs(Clean(p)) = IsAbs(p)` for every
path, the empty one included; `IsAbs(p)` holds iff the first byte of `p` is the
separator. -/
theorem Clean_preserves_rooted (p : List Byte) :
    (∃ q, Clean p = some q ∧ IsAbs q = IsAbs p) ∧
      (IsAbs p = true ↔ p.head? = some PathSeparator) := by
  refine ⟨⟨cleanRef p, Clean_eq_cleanRef p, cleanRef_isAbs p⟩, ?_⟩
  cases p with
  | nil => simp [IsAbs]
  | cons c rest =>
    rw [isAbs_cons, isPathSeparator_iff]
    simp

/-- C6: `Clean(p)` has no two adjacent separators, and it does not end with a
separator unless it is exactly the one-byte root path. -/
theorem Clean_separators (p : List Byte) :
    ∃ q, Clean p = some q ∧ noAdjSep q ∧
      ∀ c, q.getLast? = some c → IsPathSeparator c = true → q = [PathSeparator] :=
  ⟨cleanRef p, Clean_eq_cleanRef p, cleanRef_noAdjSep p, cleanRef_last p⟩

/-- C7, as stated, fails on the empty path: `Clean("")` is `"."`, whose only
segment is `"."`. -/
theorem Clean_empty_has_dot_segment :
    ∃ q, Clean [] = some q ∧ [dot] ∈ runs q :=
  ⟨[dot], rfl, by decide⟩

/-- C7, amended: `Clean(p)` is exactly `"."` (only for a path that is not
rooted), or its segments are a run of `".."` segments, empty when `p` is rooted,
followed by segments none of which is `"."` or `".."`. -/
theorem Clean_segments (p : List Byte) :
    ∃ q, Clean p = some q ∧
      ((q = [dot] ∧ IsAbs p = false) ∨
        ∃ k N, runs q = ddPrefix k ++ N ∧ (IsAbs p = true → k = 0) ∧
          ∀ t ∈ N, t ≠ [dot] ∧ t ≠ [dot, dot]) :=
  ⟨cleanRef p, Clean_eq_cleanRef p, cleanRef_runs p⟩

/-- C8: for non-empty `a` and `b`, `Join(a, b)` is `Clean(a + separator + b)`. -/
theorem Join_two (a b : List Byte) (ha : a ≠ []) (_hb : b ≠ []) :
    Join [a, b] = Clean (a ++ [PathSeparator] ++ b) ∧ ∃ q, Join [a, b] = some q := by
  have e : Join [a, b] = Clean (a ++ [PathSeparator] ++ b) := by
    rw [Join]
    simp [ha, stringsJoin, List.intercalate]
  exact ⟨e, _, by rw [e]; exact Clean_eq_cleanRef _⟩

/-- An instance of C8: `Join("a", "b")` is `Clean("a/b")`. -/
theorem Join_two_witness :
    ([97] : List Byte) ≠ [] ∧ ([98] : List Byte) ≠ [] ∧
      (Join [[97], [98]] = Clean ([97] ++ [PathSeparator] ++ [98]) ∧
        ∃ q, Join [[97], [98]] = some q) :=
  ⟨by decide, by decide, Join_two [97] [98] (by decide) (by decide)⟩

/-- C9: let `elems` be any sequence of strings.  `Join(elems)` skips the
leading empty elements; if none is left (every element is empty, the empty
sequence included) it returns `""`; otherwise, with `e` the first non-empty
element and `rest` the elements behind it (empty ones included), it returns
`Clean(e + sep + rest[0] + sep + rest[1] + ...)`, one separator between
consecutive elements, and this result is never empty.  Hence `Join(elems)` is
`""` iff all elements are empty. -/
theorem Join_first_nonempty (elems : List (List Byte)) :
    (Join elems =
        match elems.dropWhile List.isEmpty with
        | [] => some []
        | e :: rest => Clean (rest.foldl (fun acc x => acc ++ [PathSeparator] ++ x) e)) ∧
      ((∀ e ∈ elems, e = []) → Join elems = some []) ∧
      (∀ pre e rest, elems = pre ++ e :: rest → (∀ x ∈ pre, x = []) → e ≠ [] →
        ∃ q, Join elems = some q ∧ q ≠ [] ∧
          Clean (rest.foldl (fun acc x => acc ++ [PathSeparator] ++ x) e) = some q) ∧
      (∃ q, Join elems = some q) ∧
      (Join elems = some [] ↔ ∀ e ∈ elems, e = []) := by
  have e := Join_explicit elems
  have hall : (∀ e ∈ elems, e = []) → Join elems = some [] := by
    intro h
    have hd : elems.dropWhile List.isEmpty = [] :=
      List.dropWhile_eq_nil_iff.2 (fun x hx => by rw [h x hx]; rfl)
    rw [e, hd]
  refine ⟨e, hall, ?_, ?_, ?_⟩
  · intro pre e1 rest hel hpre he
    have hd := dropWhile_first_nonempty pre e1 rest hpre he
    rw [← hel] at hd
    rw [e, hd]
    exact ⟨_, Clean_eq_cleanRef _, cleanRef_ne_nil _, Clean_eq_cleanRef _⟩
  · rw [e]
    cases elems.dropWhile List.isEmpty with
    | nil => exact ⟨[], rfl⟩
    | cons e1 rest => exact ⟨_, Clean_eq_cleanRef _⟩
  · constructor
    · intro hj
      rw [e] at hj
      cases hd : elems.dropWhile List.isEmpty with
      | nil =>
        intro x hx
        exact List.isEmpty_iff.1 (List.dropWhile_eq_nil_iff.1 hd x hx)
      | cons e1 rest =>
        rw [hd] at hj
        simp only [Clean_eq_cleanRef] at hj
        exact absurd (Option.some.inj hj) (cleanRef_ne_nil _)
    · exact hall

/-- An instance of C9: `Join("", "a", "", "b")` skips the leading `""` and is
`Clean("a" + "/" + "" + "/" + "b")`. -/
theorem Join_first_nonempty_witness :
    ([[], [97], [], [98]] : List (List Byte)) = [[]] ++ [97] :: [[], [98]] ∧
      (∀ x ∈ ([[]] : List (List Byte)), x = []) ∧ ([97] : List Byte) ≠ [] ∧
      ∃ q, Join [[], [97], [], [98]] = some q ∧ q ≠ [] ∧
        Clean ([97] ++ [PathSeparator] ++ [] ++ [PathSeparator] ++ [98]) = some q :=
  ⟨rfl, by decide, by decide,
    (Join_first_nonempty [[], [97], [], [98]]).2.2.1 [[]] [97] [[], [98]] rfl (by decide)
      (by decide)⟩

/-- C10: `Split(p)` returns `(dir, file)` with `dir + file = p`, no separator in
`file`, and `dir` empty (exactly when `p` has no separator) or ending with a
separator. -/
theorem Split_parts (p : List Byte) :
    ∃ dir file, Split p = some (dir, file) ∧ dir ++ file = p ∧ noSep file ∧
      (dir = [] ↔ noSep p) ∧ (dir = [] ∨ dir.getLast? = some PathSeparator) := by
  obtain ⟨m, hm, e, hns, hsep⟩ := Split_spec p
  refine ⟨p.take m, p.drop m, e, List.take_append_drop m p, hns, ?_, ?_⟩
  · constructor
    · intro h
      have h1 : p.drop m = p := by
        have := List.take_append_drop m p
        rw [h] at this
        exact this
      rw [h1] at hns
      exact hns
    · intro h
      by_cases h0 : m = 0
      · rw [h0]
        rfl
      · rcases hsep with h1 | h1
        · exact absurd h1 h0
        · obtain ⟨hlt, hget⟩ := List.getElem?_eq_some.1 h1
          have := h PathSeparator (by rw [← hget]; exact List.getElem_mem hlt)
          rw [isPathSeparator_sep] at this
          cases this
  · by_cases h0 : m = 0
    · left
      rw [h0]
      rfl
    · right
      rcases hsep with h1 | h1
      · exact absurd h1 h0
      · obtain ⟨j, hj⟩ : ∃ j, m = j + 1 := ⟨m - 1, by omega⟩
        subst hj
        rw [Nat.add_sub_cancel] at h1
        rw [List.take_succ, h1]
        simp

/-- C11: `Dir(p)` is `Clean(dir)` for the directory part `dir` of `Split(p)`. -/
theorem Dir_is_Clean_of_Split (p : List Byte) :
    ∃ dir file, Split p = some (dir, file) ∧ Dir p = Clean dir ∧ ∃ q, Dir p = some q := by
  obtain ⟨m, _, e, _, _, hd⟩ := Dir_eq p
  exact ⟨p.take m, p.drop m, e, hd, _, by rw [hd]; exact Clean_eq_cleanRef _⟩

/-- C12, as stated, fails on `"/b"`: the part strictly before the last
separator is empty and `Clean("")` is `"."`, but `Dir("/b")` is `"/"`. -/
theorem Dir_root_child :
    noSep [98] ∧ Dir ([] ++ PathSeparator :: [98]) = some [PathSeparator] ∧
      Clean [] = some [dot] ∧ Dir ([] ++ PathSeparator :: [98]) ≠ Clean [] := by
  decide

/-- C12, amended: for a path `x ++ [sep] ++ f` whose last separator is the one
shown, `Dir` is `Clean` of the prefix up to and including that separator; this
is `Clean(x)` when `x` is non-empty, and the root path when `x` is empty. -/
theorem Dir_before_last_separator (x f : List Byte) (hf : noSep f) :
    Dir (x ++ PathSeparator :: f) = Clean (x ++ [PathSeparator]) ∧
      Dir (x ++ PathSeparator :: f) = (if x = [] then some [PathSeparator] else Clean x) := by
  obtain ⟨m, _, _, hns, hsep, hd⟩ := Dir_eq (x ++ PathSeparator :: f)
  have hm := split_point x f hf m hns hsep
  have e : (x ++ PathSeparator :: f).take m = x ++ [PathSeparator] := by
    have e1 : x ++ PathSeparator :: f = (x ++ [PathSeparator]) ++ f := by simp
    rw [e1, hm]
    exact List.take_left' (by simp)
  rw [e] at hd
  refine ⟨hd, ?_⟩
  rw [hd]
  by_cases hx : x = []
  · rw [hx]
    decide
  · simp only [hx, if_false]
    rw [Clean_eq_cleanRef, Clean_eq_cleanRef, cleanRef_trailing_sep x hx]

/-- An instance of the amended C12: `Dir("a/b")` is `Clean("a/")`, which is
`Clean("a")`. -/
theorem Dir_before_last_separator_witness :
    noSep [98] ∧
      (Dir ([97] ++ PathSeparator :: [98]) = Clean ([97] ++ [PathSeparator]) ∧
        Dir ([97] ++ PathSeparator :: [98]) =
          (if ([97] : List Byte) = [] then some [PathSeparator] else Clean [97])) :=
  ⟨by decide, Dir_before_last_separator [97] [98] (by decide)⟩

/-- C13: let `s` be the final segment of `p` (`p = d ++ s` with `s` free of
separators and `d` empty or ending with a separator; such a split exists).  If
`s` has no `'.'` then `Ext(p)` is empty; otherwise, with the last `'.'` of `s`
followed by `b`, `Ext(p)` is `'.'` followed by `b`, which has no separator. -/
theorem Ext_final_segment (p : List Byte) :
    (∃ d s, p = d ++ s ∧ noSep s ∧ (d = [] ∨ d.getLast? = some PathSeparator)) ∧
      ∀ d s, p = d ++ s → noSep s → (d = [] ∨ d.getLast? = some PathSeparator) →
        (dot ∉ s → Ext p = some []) ∧
        ∀ a b, s = a ++ dot :: b → dot ∉ b → Ext p = some (dot :: b) ∧ noSep (dot :: b) := by
  refine ⟨?_, ?_⟩
  · obtain ⟨d, s, e, h1, h2, _⟩ := final_segment_exists p
    exact ⟨d, s, e, h1, h2⟩
  · intro d s e hs hd
    subst e
    refine ⟨Ext_no_dot d s hs hd, ?_⟩
    intro a b e hb
    subst e
    exact Ext_last_dot d a b hs hb

/-- An instance of C13: in `"a/b.c"` the final segment is `"b.c"` and `Ext` is
`".c"`. -/
theorem Ext_final_segment_witness :
    ([97, 47, 98, 46, 99] : List Byte) = [97, 47] ++ [98, 46, 99] ∧ noSep [98, 46, 99] ∧
      ([98, 46, 99] : List Byte) = [98] ++ dot :: [99] ∧ dot ∉ ([99] : List Byte) ∧
      (Ext [97, 47, 98, 46, 99] = some (dot :: [99]) ∧ noSep (dot :: [99])) :=
  ⟨rfl, by decide, rfl, by decide,
    ((Ext_final_segment [97, 47, 98, 46, 99]).2 [97, 47] [98, 46, 99] rfl (by decide)
      (Or.inr rfl)).2 [98] [99] rfl (by decide)⟩

/-- C14: `Base("")` is `"."`; on a non-empty path of separators only `Base` is
the one-byte separator string; on a path `d ++ s ++ t` with trailing separators
`t`, non-empty final segment `s` and `d` empty or ending with a separator,
`Base` is `s`.  So `Base(p)` is never empty, and it is the single separator or
free of separators. -/
theorem Base_final_segment (p : List Byte) :
    Base [] = some [dot] ∧
      (p ≠ [] → (∀ c ∈ p, IsPathSeparator c = true) → Base p = some [PathSeparator]) ∧
      (∀ d s t, p = d ++ s ++ t → s ≠ [] → noSep s → (∀ c ∈ t, IsPathSeparator c = true) →
        (d = [] ∨ d.getLast? = some PathSeparator) → Base p = some s) ∧
      ∃ b, Base p = some b ∧ b ≠ [] ∧ (b = [PathSeparator] ∨ noSep b) := by
  refine ⟨rfl, Base_all_sep p, ?_, ?_⟩
  · intro d s t e hne hs ht hd
    rw [e]
    exact Base_eq d s t hne hs ht hd
  · rcases base_decomp p with h | ⟨h1, h2⟩ | ⟨d, s, t, e, hne, hs, ht, hd⟩
    · rw [h]
      exact ⟨[dot], rfl, by simp, Or.inr (by decide)⟩
    · exact ⟨[PathSeparator], Base_all_sep p h1 h2, by simp, Or.inl rfl⟩
    · rw [e]
      exact ⟨s, Base_eq d s t hne hs ht hd, hne, Or.inr hs⟩

/-- An instance of C14: `Base("/a/b/")` is `"b"`. -/
theorem Base_final_segment_witness :
    ([47, 97, 47, 98, 47] : List Byte) = [47, 97, 47] ++ [98] ++ [47] ∧
      ([98] : List Byte) ≠ [] ∧ noSep [98] ∧ (∀ c ∈ ([47] : List Byte), IsPathSeparator c = true) ∧
      Base [47, 97, 47, 98, 47] = some [98] :=
  ⟨rfl, by decide, by decide, by decide,
    (Base_final_segment [47, 97, 47, 98, 47]).2.2.1 [47, 97, 47] [98] [47] rfl (by decide)
      (by decide) (by decide) (Or.inr rfl)⟩

/-- C15: the listed results of `Clean`, with separator `'/'`: `""`, `"."`,
`"abc"`, `"abc/"`, `"a//b"`, `"//a//b"`, `"/../"`, `"a/./b"`, `"a/.."`,
`"a/../../b"` and `"/a/../../b"` are cleaned to `"."`, `"."`, `"abc"`, `"abc"`,
`"a/b"`, `"/a/b"`, `"/"`, `"a/b"`, `"."`, `"../b"` and `"/b"`. -/
theorem Clean_examples :
    PathSeparator = 47 ∧ dot = 46 ∧
      Clean [] = some [46] ∧
      Clean [46] = some [46] ∧
      Clean [97, 98, 99] = some [97, 98, 99] ∧
      Clean [97, 98, 99, 47] = some [97, 98, 99] ∧
      Clean [97, 47, 47, 98] = some [97, 47, 98] ∧
      Clean [47, 47, 97, 47, 47, 98] = some [47, 97, 47, 98] ∧
      Clean [47, 46, 46, 47] = some [47] ∧
      Clean [97, 47, 46, 47, 98] = some [97, 47, 98] ∧
      Clean [97, 47, 46, 46] = some [46] ∧
      Clean [97, 47, 46, 46, 47, 46, 46, 47, 98] = some [46, 46, 47, 98] ∧
      Clean [47, 97, 47, 46, 46, 47, 46, 46, 47, 98] = some [47, 98] := by
  refine ⟨rfl, rfl, ?_, ?_, ?_, ?_, ?_, ?_, ?_, ?_, ?_, ?_, ?_⟩ <;> decide!

/-- C16: the listed results of the path operations, with separator `'/'`:
`Ext("file.tar.gz")` is `".gz"`, `Ext("noext")` is `""`, `Base("/a/b/")` is
`"b"`, `Base("")` is `"."`, `Split("/a/b")` is `("/a/", "b")`,
`Join("", "a", "", "b")` is `"a/b"` and `Join("", "")` is `""`. -/
theorem PathOps_examples :
    PathSeparator = 47 ∧ dot = 46 ∧
      Ext [102, 105, 108, 101, 46, 116, 97, 114, 46, 103, 122] = some [46, 103, 122] ∧
      Ext [110, 111, 101, 120, 116] = some [] ∧
      Base [47, 97, 47, 98, 47] = some [98] ∧
      Base [] = some [46] ∧
      Split [47, 97, 47, 98] = some ([47, 97, 47], [98]) ∧
      Join [[], [97], [], [98]] = some [97, 47, 98] ∧
      Join [[], []] = some [] := by
  refine ⟨rfl, rfl, ?_, ?_, ?_, ?_, ?_, ?_, ?_⟩ <;> decide!

/-- C19: splitting a non-empty path and joining the parts cleans it; for the
empty path the join is `""` while `Clean("")` is `"."`. -/
theorem Join_of_Split (p : List Byte) :
    (∃ dir file, Split p = some (dir, file) ∧
        Join [dir, file] = (if p = [] then some [] else Clean p)) ∧
      Clean [] = some [dot] := by
  refine ⟨?_, rfl⟩
  obtain ⟨m, hm, e, hns, hsep⟩ := Split_spec p
  refine ⟨p.take m, p.drop m, e, ?_⟩
  by_cases hp : p = []
  · rw [hp]
    simp [Join]
  · simp only [hp, if_false]
    by_cases h0 : m = 0
    · rw [h0]
      simp [Join, hp, stringsJoin, List.intercalate]
    · rcases hsep with h1 | h1
      · exact absurd h1 h0
      · obtain ⟨j, hj⟩ : ∃ j, m = j + 1 := ⟨m - 1, by omega⟩
        subst hj
        rw [Nat.add_sub_cancel] at h1
        have ht : p.take (j + 1) = p.take j ++ [PathSeparator] := by
          rw [List.take_succ, h1]
          rfl
        have hne : p.take (j + 1) ≠ [] := by
          rw [ht]
          simp
        have e1 : stringsJoin [p.take (j + 1), p.drop (j + 1)] [PathSeparator] =
            p.take j ++ PathSeparator :: PathSeparator :: p.drop (j + 1) := by
          rw [ht]
          simp [stringsJoin, List.intercalate]
        have e2 : p = p.take j ++ PathSeparator :: p.drop (j + 1) := by
          have := List.take_append_drop (j + 1) p
          rw [ht] at this
          simpa using this.symm
        rw [Join]
        simp only [hne, ne_eq, not_false_eq_true, if_true, e1]
        rw [Clean_eq_cleanRef, Clean_eq_cleanRef, cleanRef_double_sep, ← e2]

/-- C20: on a non-empty path whose last byte is not a separator, `Base` is the
file part of `Split`. -/
theorem Base_eq_Split_file (p : List Byte) (hne : p ≠ [])
    (hlast : ∀ c, p.getLast? = some c → IsPathSeparator c = false) :
    ∃ dir file, Split p = some (dir, file) ∧ Base p = some file := by
  obtain ⟨d, s, e, hs, hd, hsplit⟩ := final_segment_exists p
  refine ⟨d, s, hsplit, ?_⟩
  have hs0 : s ≠ [] := by
    intro h0
    rw [h0, List.append_nil] at e
    rcases hd with h | h
    · exact hne (by rw [e, h])
    · rw [← e] at h
      have := hlast _ h
      rw [isPathSeparator_sep] at this
      cases this
  have := Base_eq d s [] hs0 hs (by simp) hd
  rw [List.append_nil, ← e] at this
  exact this

/-- An instance of C20: `Base("a/b")` and the file part of `Split("a/b")` are
both `"b"`. -/
theorem Base_eq_Split_file_witness :
    ([97, 47, 98] : List Byte) ≠ [] ∧
      (∀ c, ([97, 47, 98] : List Byte).getLast? = some c → IsPathSeparator c = false) ∧
      ∃ dir file, Split [97, 47, 98] = some (dir, file) ∧ Base [97, 47, 98] = some file :=
  ⟨by decide, by intro c hc; cases hc; decide,
    Base_eq_Split_file [97, 47, 98] (by decide) (by intro c hc; cases hc; decide)⟩

/-- C17: when `Clean(p) = p` for a non-empty path `p`, no loop head of `Clean`
has an allocated buffer, `buf` is still `nil` when the main loop ends and after
the final `append`, and the result is the slice `p[:w]` of the input. -/
theorem Clean_in_place (c0 : Byte) (rest : List Byte)
    (h : Clean (c0 :: rest) = some (c0 :: rest)) :
    ∃ s0 s1 o,
      cleanInit (c0 :: rest) (IsPathSeparator c0) = some s0 ∧
      cleanLoop (c0 :: rest) (IsPathSeparator c0) (c0 :: rest).length s0 = some s1 ∧
      (∀ s, LoopHead (c0 :: rest) (IsPathSeparator c0) s → s.out.buf = none) ∧
      s1.out.buf = none ∧
      (if s1.out.w = 0 then s1.out.append dot else some s1.out) = some o ∧
      o.buf = none ∧ o.path = c0 :: rest ∧ o.string = some ((c0 :: rest).take o.w) := by
  obtain ⟨s0, s1, k1, N1, e0, e1, g1, hr1, ht1⟩ := Clean_run_tight c0 rest
  obtain ⟨o, ho, _, _, hoc, hres⟩ := Clean_unfold c0 rest s0 s1 e0 e1 g1.inv g1.hpath
  rw [hres] at h
  have hcont : o.content = c0 :: rest := Option.some.inj h
  by_cases hw : s1.out.w = 0
  · -- the result is ".", so the path is "."
    simp only [hw, if_true] at hoc
    rw [hoc] at hcont
    cases hcont
    exact ⟨{ r := 0, dotdot := 0, out := { path := [dot], buf := none, w := 0 } },
      { r := 1, dotdot := 0, out := { path := [dot], buf := none, w := 0 } },
      { path := [dot], buf := none, w := 1 },
      by decide, by decide, loopHead_dot, rfl, by decide, rfl, rfl, by decide⟩
  · simp only [hw, if_false] at ho hoc
    cases ho
    have hwl := lazybuf.content_length _ g1.inv
    rw [hcont] at hwl
    have hnot : ¬ Behind (c0 :: rest) (IsPathSeparator c0) s1 := by
      intro hE
      have := hE.1
      omega
    have hb1 : s1.out.buf = none := by
      rcases ht1 with ⟨hb, _⟩ | hE
      · exact hb
      · exact absurd hE hnot
    refine ⟨s0, s1, s1.out, e0, e1, ?_, hb1, by simp only [hw, if_false], hb1, g1.hpath, ?_⟩
    · intro s hs
      obtain ⟨⟨k, N, g⟩, ht, fuel, hf⟩ := loopHead_tight c0 rest s0 s1 e0 e1 s hs
      rcases ht with ⟨hb, _⟩ | hE
      · exact hb
      · exact absurd ((cleanLoop_tight _ _ fuel s k N s1 g (Or.inr hE) hf).2 hE) hnot
    · rw [lazybuf.string_eq _ g1.inv]
      simp only [lazybuf.content, hb1, g1.hpath]

/-- An instance of C17: `Clean("a/b")` is `"a/b"`, and it is computed in
place. -/
theorem Clean_in_place_witness :
    Clean (97 :: [47, 98]) = some (97 :: [47, 98]) ∧
      ∃ s0 s1 o,
        cleanInit (97 :: [47, 98]) (IsPathSeparator 97) = some s0 ∧
        cleanLoop (97 :: [47, 98]) (IsPathSeparator 97) (97 :: [47, 98]).length s0 = some s1 ∧
        (∀ s, LoopHead (97 :: [47, 98]) (IsPathSeparator 97) s → s.out.buf = none) ∧
        s1.out.buf = none ∧
        (if s1.out.w = 0 then s1.out.append dot else some s1.out) = some o ∧
        o.buf = none ∧ o.path = 97 :: [47, 98] ∧
        o.string = some ((97 :: [47, 98]).take o.w) :=
  ⟨by decide, Clean_in_place 97 [47, 98] (by decide)⟩

/-- C18: the lazy buffer refines a plain byte buffer.  Under the representation
invariant, `append(c)` with `w < len(path)` keeps the invariant and extends
`string()` by `c`; lowering `w` to `k <= w` makes `string()` its first `k`
bytes; `index(i)` is byte `i` of `string()` for `i < w`.  Hence `Clean` computes
what the same algorithm computes over a plain output buffer. -/
theorem lazybuf_refines_plain_buffer (b : lazybuf) (c : Byte) (h : b.inv) :
    (b.w < b.path.length →
        ∃ b1 s, b.append c = some b1 ∧ b1.inv ∧ b.string = some s ∧
          b1.string = some (s ++ [c])) ∧
      (∀ k, k ≤ b.w →
        ∃ s, b.string = some s ∧ ({ b with w := k } : lazybuf).string = some (s.take k)) ∧
      (∀ i, i < b.w → ∃ s, b.string = some s ∧ b.index i = s[i]?) ∧
      ∀ p, Clean p = CleanPlain p := by
  refine ⟨?_, ?_, ?_, Clean_eq_CleanPlain⟩
  · intro hw
    obtain ⟨b1, e1, i1, _, _, c1⟩ := b.append_spec c h hw
    exact ⟨b1, b.content, e1, i1, b.string_eq h, by rw [lazybuf.string_eq _ i1, c1]⟩
  · intro k hk
    obtain ⟨i1, c1⟩ := b.truncate_spec k h hk
    exact ⟨b.content, b.string_eq h, by rw [lazybuf.string_eq _ i1, c1]⟩
  · intro i hi
    exact ⟨b.content, b.string_eq h, b.index_spec i hi⟩

/-- An instance of C18: appending `'x'` to the buffer that holds `"a"` of the
input `"ab"` allocates, and the string becomes `"ax"`. -/
theorem lazybuf_refines_plain_buffer_witness :
    ({ path := [97, 98], buf := none, w := 1 } : lazybuf).inv ∧
      ∃ b1 s, ({ path := [97, 98], buf := none, w := 1 } : lazybuf).append 120 = some b1 ∧
        b1.inv ∧ ({ path := [97, 98], buf := none, w := 1 } : lazybuf).string = some s ∧
        b1.string = some (s ++ [120]) :=
  ⟨⟨by decide, by intro buf hb; cases hb⟩,
    (lazybuf_refines_plain_buffer { path := [97, 98], buf := none, w := 1 } 120
      ⟨by decide, by intro buf hb; cases hb⟩).1 (by decide)⟩

end vfs
